import Mathlib

/-!
# KuiperInfer tensors (include/data/tensor.hpp)

A shallow embedding of the compile-time-shaped tensor `TensorNd<float, Shapes...>`
of `include/data/tensor.hpp`, lines 259-351, followed by a model of the
three-dimensional `Tensor<float>`, whose members the header only declares.

* `uint32_t` values are natural numbers; every `uint32_t` arithmetic result is
  reduced modulo `U32 = 2^32`.
* The free store is a list of buffers; the address of a buffer is its position
  in the list.  A `float*` is a buffer address together with an element offset.
* `std::shared_ptr<float> data_` is `Option Nat`: `none` is `nullptr`, `some a`
  is the buffer at address `a`.  Copying a handle copies the address.
* A failed glog `CHECK` aborts the process: `Outcome.fatal`.  A store outside
  the addressed buffer has no defined behaviour: `Outcome.overrun`.
* Elements are values of an arbitrary type `α`; the container only stores and
  loads them.
-/

set_option autoImplicit false

namespace kuiper_infer

/-- Number of values of a `uint32_t`. -/
def U32 : Nat := 4294967296

/-- Result of running a member function. -/
inductive Outcome (β : Type) where
  | fatal : Outcome β
  | overrun : Outcome β
  | ok : β → Outcome β
  deriving DecidableEq, Repr

/-- Free store: the buffers allocated so far, addressed by position. -/
abbrev Heap (α : Type) := List (List α)

/-- A `float*`: the buffer it points into and the element offset from its start. -/
structure Ptr where
  base : Nat
  off : Nat
  deriving DecidableEq, Repr

/-- Read `*p`; `none` when `p` does not address an element of a buffer. -/
def load {α : Type} (heap : Heap α) (p : Ptr) : Option α :=
  match heap[p.base]? with
  | none => none
  | some buf => buf[p.off]?

/-- Write `*p = v`. -/
def store {α : Type} (p : Ptr) (v : α) (heap : Heap α) : Outcome (Heap α) :=
  match heap[p.base]? with
  | none => Outcome.overrun
  | some buf =>
    if p.off < buf.length then Outcome.ok (heap.set p.base (buf.set p.off v))
    else Outcome.overrun

/-- `StoreShape<HeadShape, TailShapes...>(shapes)` (lines 259-265). -/
def StoreShape (HeadShape : Nat) (TailShapes : List Nat) (shapes : List Nat) : List Nat :=
  match TailShapes with
  | [] => shapes ++ [HeadShape]
  | h :: t => StoreShape h t (shapes ++ [HeadShape])

/-- `std::accumulate(first, last, init, std::multiplies())` on `uint32_t` elements:
every product is formed in `unsigned int`, so it is reduced modulo `2^32`. -/
def accumulate (xs : List Nat) (init : Nat) : Nat :=
  xs.foldl (fun acc x => (acc * x) % U32) init

/-- Data members of `TensorNd<float, Shapes...>`: `raw_shapes_` (inherited from
`BaseTensor`) and `data_`. -/
structure TensorNd where
  raw_shapes_ : List Nat
  data_ : Option Nat
  deriving DecidableEq, Repr

/-- The constructor `TensorNd()` (lines 273-282).  `init` gives the
indeterminate contents of the fresh `new float[size]`. -/
def TensorNd.Construct {α : Type} (HeadShape : Nat) (TailShapes : List Nat)
    (init : Nat → α) (heap : Heap α) : TensorNd × Heap α :=
  let raw_shapes_ := StoreShape HeadShape TailShapes []
  if ¬ raw_shapes_.isEmpty then
    let size := accumulate raw_shapes_ 1
    let data_ptr := heap.length
    ({ raw_shapes_ := raw_shapes_, data_ := some data_ptr },
      heap ++ [(List.range size).map init])
  else
    ({ raw_shapes_ := raw_shapes_, data_ := none }, heap)

/-- The implicit copy constructor: the shape vector is copied, the
`shared_ptr` is copied and so designates the same buffer. -/
def TensorNd.copy (t : TensorNd) : TensorNd :=
  { raw_shapes_ := t.raw_shapes_, data_ := t.data_ }

/-- `raw_ptr()` (lines 284-288). -/
def TensorNd.raw_ptr (t : TensorNd) : Outcome Ptr :=
  match t.data_ with
  | none => Outcome.fatal
  | some a => Outcome.ok ⟨a, 0⟩

/-- `raw_shapes()` (lines 290-292). -/
def TensorNd.raw_shapes (t : TensorNd) : List Nat := t.raw_shapes_

/-- `raw_ptr(uint32_t offset)` (lines 294-298). -/
def TensorNd.raw_ptr_offset (t : TensorNd) (offset : Nat) : Outcome Ptr :=
  match t.data_ with
  | none => Outcome.fatal
  | some a => Outcome.ok ⟨a, offset⟩

/-- First loop of `raw_ptr(const std::vector<uint32_t>&)` (lines 303-310):
`offsets_` receives `offsets.at(i)` for `i < offsets.size()` and `0` after. -/
def padOffsets (rank : Nat) (offsets : List Nat) : List Nat :=
  (List.range rank).foldl
    (fun offsets_ i =>
      if i < offsets.length then offsets_ ++ [offsets.getD i 0] else offsets_ ++ [0])
    []

/-- One iteration of the second loop of `raw_ptr(const std::vector<uint32_t>&)`
(lines 315-318). `raw_shapes_.at(i)` throws when `i` is out of range, which
ends the process as a failed check does. `CHECK_GE(offsets_[i], 0)` compares an
unsigned value with zero and cannot fail. -/
def offsetStep (raw_shapes_ offsets_ : List Nat) (acc : Outcome Nat) (i : Nat) : Outcome Nat :=
  match acc with
  | Outcome.ok total_offset =>
    match raw_shapes_[i]? with
    | none => Outcome.fatal
    | some d =>
      let total_offset := (total_offset * d) % U32
      if offsets_.getD i 0 < d then Outcome.ok ((total_offset + offsets_.getD i 0) % U32)
      else Outcome.fatal
  | e => e

/-- Second loop of `raw_ptr(const std::vector<uint32_t>&)` (lines 313-319). -/
def offsetLoop (raw_shapes_ offsets_ : List Nat) : Outcome Nat :=
  (List.range offsets_.length).foldl (offsetStep raw_shapes_ offsets_) (Outcome.ok 0)

/-- `raw_ptr(const std::vector<uint32_t>& offsets)` (lines 300-321). -/
def TensorNd.raw_ptr_offsets (t : TensorNd) (offsets : List Nat) : Outcome Ptr :=
  if offsets.length < t.raw_shapes_.length then
    let offsets_ := padOffsets t.raw_shapes_.length offsets
    if offsets_.length = t.raw_shapes_.length then
      match offsetLoop t.raw_shapes_ offsets_ with
      | Outcome.ok total_offset => t.raw_ptr_offset total_offset
      | Outcome.overrun => Outcome.overrun
      | Outcome.fatal => Outcome.fatal
    else Outcome.fatal
  else Outcome.fatal

/-- `size()` (lines 342-347). -/
def TensorNd.size (t : TensorNd) : Outcome Nat :=
  if t.raw_shapes.length > 0 then Outcome.ok (accumulate t.raw_shapes_ 1)
  else Outcome.fatal

/-- Body of the loop of `Fill(float value)` (line 329): `*(data + i) = value`. -/
def fillStep {α : Type} (data : Ptr) (value : α) (acc : Outcome (Heap α)) (i : Nat) :
    Outcome (Heap α) :=
  match acc with
  | Outcome.ok heap => store ⟨data.base, data.off + i⟩ value heap
  | e => e

/-- `Fill(float value)` (lines 323-331). -/
def TensorNd.Fill {α : Type} (t : TensorNd) (value : α) (heap : Heap α) : Outcome (Heap α) :=
  if t.data_ ≠ none then
    if t.raw_shapes_.length > 0 then
      match t.size with
      | Outcome.ok size =>
        match t.raw_ptr with
        | Outcome.ok data => (List.range size).foldl (fillStep data value) (Outcome.ok heap)
        | Outcome.overrun => Outcome.overrun
        | Outcome.fatal => Outcome.fatal
      | Outcome.overrun => Outcome.overrun
      | Outcome.fatal => Outcome.fatal
    else Outcome.fatal
  else Outcome.fatal

/-- `std::copy(first, last, d_first)`: `*d_first++ = *first++` until `first == last`. -/
def std_copy {α : Type} : List α → Ptr → Heap α → Outcome (Heap α)
  | [], _, heap => Outcome.ok heap
  | v :: vs, d_first, heap =>
    match store d_first v heap with
    | Outcome.ok heap1 => std_copy vs ⟨d_first.base, d_first.off + 1⟩ heap1
    | e => e

/-- `Fill(const std::vector<float>& values)` (lines 333-340).  `value_size` is
a `uint32_t` initialised from the `size_t` `values.size()`. -/
def TensorNd.Fill_values {α : Type} (t : TensorNd) (values : List α) (heap : Heap α) :
    Outcome (Heap α) :=
  match t.data_ with
  | none => Outcome.fatal
  | some a =>
    if t.raw_shapes_.length > 0 then
      match t.size with
      | Outcome.ok size =>
        let value_size := values.length % U32
        if size = value_size then std_copy values ⟨a, 0⟩ heap
        else Outcome.fatal
      | Outcome.overrun => Outcome.overrun
      | Outcome.fatal => Outcome.fatal
    else Outcome.fatal

/-- Row-major offset of a partial index in the words of the specification:
the sum over `i < k` of `idx[i]` times the product of `dims[j]` for `j > i`. -/
def rowMajorOffset (dims idx : List Nat) : Nat :=
  ((List.range idx.length).map (fun i => idx.getD i 0 * (dims.drop (i + 1)).prod)).sum

/-- The accumulation of the specification, `total = total * dims[i] + index[i]`
over all `i` in rank order, in unbounded arithmetic, with `index[i] = idx[i]`
for `i < k` and `0` otherwise. -/
def hornerOffset (dims idx : List Nat) : Nat :=
  (List.range dims.length).foldl
    (fun total i => total * dims.getD i 0 + (if i < idx.length then idx.getD i 0 else 0)) 0

/-- States that a program holding a handle `t` of type
`TensorNd<float, HeadShape, TailShapes...>` can reach, `heap` being the free
store: construction, copying the handle, the two `Fill` members, a store
through any pointer (such as one returned by `raw_ptr`), and further
allocations. The members `raw_ptr`, `raw_shapes` and `size` only return a
value. A handle that was the source of a move is not among these states. -/
inductive Reachable {α : Type} (HeadShape : Nat) (TailShapes : List Nat) :
    TensorNd → Heap α → Prop where
  | construct (init : Nat → α) (heap : Heap α)
      (hb : ∀ d ∈ HeadShape :: TailShapes, d < U32) :
      Reachable HeadShape TailShapes
        (TensorNd.Construct HeadShape TailShapes init heap).1
        (TensorNd.Construct HeadShape TailShapes init heap).2
  | copy {t : TensorNd} {heap : Heap α} :
      Reachable HeadShape TailShapes t heap → Reachable HeadShape TailShapes t.copy heap
  | fill {t : TensorNd} {heap : Heap α} (value : α) (heap1 : Heap α) :
      Reachable HeadShape TailShapes t heap → t.Fill value heap = Outcome.ok heap1 →
      Reachable HeadShape TailShapes t heap1
  | fill_values {t : TensorNd} {heap : Heap α} (values : List α) (heap1 : Heap α) :
      Reachable HeadShape TailShapes t heap → t.Fill_values values heap = Outcome.ok heap1 →
      Reachable HeadShape TailShapes t heap1
  | write {t : TensorNd} {heap : Heap α} (p : Ptr) (v : α) (heap1 : Heap α) :
      Reachable HeadShape TailShapes t heap → store p v heap = Outcome.ok heap1 →
      Reachable HeadShape TailShapes t heap1
  | alloc {t : TensorNd} {heap : Heap α} (buf : List α) :
      Reachable HeadShape TailShapes t heap → Reachable HeadShape TailShapes t (heap ++ [buf])

/-- The state invariant of a handle `t` of shape `dims`: the shape vector is
`dims`, `data_` is set, and the buffer it designates holds `size()` elements. -/
def Live {α : Type} (dims : List Nat) (t : TensorNd) (heap : Heap α) : Prop :=
  t.raw_shapes_ = dims ∧ dims ≠ [] ∧
    ∃ a buf, t.data_ = some a ∧ heap[a]? = some buf ∧ buf.length = dims.prod % U32

/-- Zero-padded index as a function of the position: `idx[i]` for
`i < idx.size()` and `0` otherwise. -/
def padded (idx : List Nat) (i : Nat) : Nat := if i < idx.length then idx.getD i 0 else 0

/-- The accumulation `total = total * d i + x i` over `i < m`, in unbounded arithmetic. -/
def hornerUpTo (d x : Nat → Nat) (m : Nat) : Nat :=
  (List.range m).foldl (fun total i => total * d i + x i) 0

/-- Lexicographic comparison of two digit functions on the positions below `m`. -/
def lexLtUpTo (x y : Nat → Nat) (m : Nat) : Prop :=
  ∃ j, j < m ∧ (∀ i, i < j → x i = y i) ∧ x j < y j

/-! ## `Tensor<float>`, the three-dimensional tensor

`include/data/tensor.hpp` (lines 61-254) only declares the members of
`Tensor<float>`; their definitions and the dense-array collaborator
(`arma::fcube`) are not among the sources.  The definitions of this section
follow section 4.2 of the specification. -/

/-- Modelled from the spec: layout arithmetic of the dense-array collaborator,
which is missing. Position of the element `(i, j, k)` in a block of `A` planes
of `B` lines of `C` elements stored plane by plane and line by line. -/
def enc3 (B C i j k : Nat) : Nat := i * (B * C) + j * C + k

/-- Modelled from the spec: layout arithmetic of the dense-array collaborator,
which is missing. The element `(i, j, k)` stored at position `n` of a block of
planes of `B` lines of `C` elements. -/
def dec3 (B C n : Nat) : Nat × Nat × Nat := (n / (B * C), (n % (B * C)) / C, (n % (B * C)) % C)

/-- Modelled from the spec: the dense-array collaborator behind the data member
`data_` of `Tensor<float>` (an owned, contiguous block of `n_slices` channels of
`n_rows` by `n_cols` elements). `mem` lists the elements in the collaborator's
native order, channel by channel and column by column within a channel, the
column-major convention of the glossary. -/
structure Tensor (α : Type) where
  n_rows : Nat
  n_cols : Nat
  n_slices : Nat
  mem : List α
  deriving DecidableEq, Repr

/-- Modelled from the spec: position in the native order of the element
`(channel, row, col)` of a block with `rows` rows and `cols` columns. -/
def nativeIndex (rows cols channel row col : Nat) : Nat := enc3 cols rows channel col row

/-- Modelled from the spec: position of the element `(channel, row, col)` in a
sequence "ordered by (channel, then row, then column)". -/
def rowMajorIndex (rows cols channel row col : Nat) : Nat := enc3 rows cols channel row col

/-- Modelled from the spec: the constructor `Tensor(channels, rows, cols)`,
which "allocates a zeroed block of the given dims" (its definition is missing). -/
def Tensor.Construct {α : Type} [Zero α] (channels rows cols : Nat) : Tensor α :=
  { n_rows := rows, n_cols := cols, n_slices := channels,
    mem := List.replicate (channels * rows * cols) 0 }

/-- Modelled from the spec: `rows()`, a pure accessor reflecting the current
block dims (its definition is missing). -/
def Tensor.rows {α : Type} (t : Tensor α) : Nat := t.n_rows

/-- Modelled from the spec: `cols()`, a pure accessor reflecting the current
block dims (its definition is missing). -/
def Tensor.cols {α : Type} (t : Tensor α) : Nat := t.n_cols

/-- Modelled from the spec: `channels()`, a pure accessor reflecting the
current block dims (its definition is missing). -/
def Tensor.channels {α : Type} (t : Tensor α) : Nat := t.n_slices

/-- Modelled from the spec: `size()`, with `size() == channels*rows*cols`
(its definition is missing). -/
def Tensor.size {α : Type} (t : Tensor α) : Nat := t.channels * t.rows * t.cols

/-- Modelled from the spec: `shapes()`, with `shape() == {channels, rows, cols}`
at all times (its definition is missing). -/
def Tensor.shapes {α : Type} (t : Tensor α) : List Nat := [t.channels, t.rows, t.cols]

/-- Modelled from the spec: `empty()`, "true iff no block is allocated" (its
definition is missing). -/
def Tensor.empty {α : Type} (t : Tensor α) : Bool := t.mem.isEmpty

/-- Modelled from the spec: `at(channel, row, col)`, "bounds-checked 3D element
access; any index out of `[0, dim)` is fatal" (its definition is missing). -/
def Tensor.at_ {α : Type} (t : Tensor α) (channel row col : Nat) : Outcome α :=
  if channel < t.channels ∧ row < t.rows ∧ col < t.cols then
    match t.mem[nativeIndex t.rows t.cols channel row col]? with
    | some v => Outcome.ok v
    | none => Outcome.fatal
  else Outcome.fatal

/-- Modelled from the spec: `Fill(value)`, "broadcast" (its definition is
missing); access to an unset buffer is fatal. -/
def Tensor.Fill {α : Type} (t : Tensor α) (value : α) : Outcome (Tensor α) :=
  if t.empty then Outcome.fatal
  else Outcome.ok { t with mem := List.replicate t.size value }

/-- Modelled from the spec: `Fill(values, row_major)` (declared at lines 98-102,
its definition is missing). It "bulk-loads `values` (length must equal
`size()`, else fatal) into the block; `row_major=true` interprets `values` as
ordered by (channel, then row, then column)", `row_major=false` as the native
ordering; access to an unset buffer is fatal. -/
def Tensor.Fill_values {α : Type} [Zero α] (t : Tensor α) (values : List α)
    (row_major : Bool) : Outcome (Tensor α) :=
  if t.empty then Outcome.fatal
  else if values.length ≠ t.size then Outcome.fatal
  else if row_major then
    Outcome.ok { t with mem := (List.range t.size).map (fun n =>
      values.getD (rowMajorIndex t.rows t.cols (dec3 t.cols t.rows n).1
        (dec3 t.cols t.rows n).2.2 (dec3 t.cols t.rows n).2.1) 0) }
  else Outcome.ok { t with mem := values }

/-- Modelled from the spec: `values(row_major)` (declared at lines 205-210, its
definition is missing): "inverse of Fill, produces a flat sequence honoring
the same ordering flag"; access to an unset buffer is fatal. -/
def Tensor.values {α : Type} [Zero α] (t : Tensor α) (row_major : Bool) : Outcome (List α) :=
  if t.empty then Outcome.fatal
  else if row_major then
    Outcome.ok ((List.range t.size).map (fun n =>
      t.mem.getD (nativeIndex t.rows t.cols (dec3 t.rows t.cols n).1
        (dec3 t.rows t.cols n).2.1 (dec3 t.rows t.cols n).2.2) 0))
  else Outcome.ok t.mem

/-- Modelled from the spec: `Reshape(shapes, row_major)` (declared at lines
227-232, its definition is missing): the "shape must describe the same total
element count as the current size, else fatal. Implemented conceptually as:
flatten the current buffer in the requested order, then re-partition the flat
sequence into the new shape in the same order." The specification describes
shapes of exactly three dimensions; other lengths are fatal here. -/
def Tensor.Reshape {α : Type} [Zero α] (t : Tensor α) (shapes : List Nat) (row_major : Bool) :
    Outcome (Tensor α) :=
  if t.empty then Outcome.fatal
  else
    match shapes with
    | [channels, rows, cols] =>
      if channels * rows * cols = t.size then
        match t.values row_major with
        | Outcome.ok flat =>
          Tensor.Fill_values
            { n_rows := rows, n_cols := cols, n_slices := channels, mem := t.mem } flat row_major
        | Outcome.overrun => Outcome.overrun
        | Outcome.fatal => Outcome.fatal
      else Outcome.fatal
    | _ => Outcome.fatal

/-- Modelled from the spec: `Padding(pads, padding_value)` (declared at lines
198-203, its definition is missing): "`pads` is a 4-element sequence (top,
bottom, left, right); rows grow by `top+bottom`, cols grow by `left+right`;
every channel's original row/col sub-block is copied unchanged into the padded
interior at offset `(top, left)`; newly introduced border cells are set to
`padding_value`." Access to an unset buffer is fatal. -/
def Tensor.Padding {α : Type} [Zero α] (t : Tensor α) (pads : List Nat) (padding_value : α) :
    Outcome (Tensor α) :=
  if t.empty then Outcome.fatal
  else
    match pads with
    | [top, bottom, left, right] =>
      let new_rows := t.rows + top + bottom
      let new_cols := t.cols + left + right
      Outcome.ok
        { n_rows := new_rows, n_cols := new_cols, n_slices := t.channels,
          mem := (List.range (t.channels * new_rows * new_cols)).map (fun n =>
            let row := (dec3 new_cols new_rows n).2.2
            let col := (dec3 new_cols new_rows n).2.1
            if top ≤ row ∧ row < top + t.rows ∧ left ≤ col ∧ col < left + t.cols then
              t.mem.getD
                (nativeIndex t.rows t.cols (dec3 new_cols new_rows n).1 (row - top) (col - left))
                0
            else padding_value) }
    | _ => Outcome.fatal

/-- Modelled from the spec: the state of a `Tensor<float>` of shape
`(channels, rows, cols)`: the dimensions are positive ("Shape: an ordered
sequence of positive integers") and the buffer is "fully allocated (matching
shape)". -/
def Tensor.Valid {α : Type} (t : Tensor α) : Prop :=
  0 < t.channels ∧ 0 < t.rows ∧ 0 < t.cols ∧ t.mem.length = t.size

/-! ## Shape and size -/

theorem StoreShape_eq (h : Nat) (t acc : List Nat) : StoreShape h t acc = acc ++ h :: t := by
  induction t generalizing h acc with
  | nil => simp [StoreShape]
  | cons x xs ih => simp [StoreShape, ih]

theorem accumulate_mod (xs : List Nat) (init : Nat) :
    accumulate xs init % U32 = (init * xs.prod) % U32 := by
  induction xs generalizing init with
  | nil => simp [accumulate]
  | cons x xs ih =>
    have h := ih ((init * x) % U32)
    simp only [accumulate, List.foldl_cons, List.prod_cons] at h ⊢
    rw [h, Nat.mul_mod, Nat.mod_mod, ← Nat.mul_mod, Nat.mul_assoc]

theorem accumulate_lt (xs : List Nat) (init : Nat) (h : init < U32) :
    accumulate xs init < U32 := by
  induction xs generalizing init with
  | nil => simpa [accumulate] using h
  | cons x xs ih =>
    exact ih ((init * x) % U32) (Nat.mod_lt _ (by decide))

theorem accumulate_one (xs : List Nat) : accumulate xs 1 = xs.prod % U32 := by
  have h := accumulate_mod xs 1
  rw [Nat.mod_eq_of_lt (accumulate_lt xs 1 (by decide)), Nat.one_mul] at h
  exact h

theorem Construct_fst {α : Type} (HeadShape : Nat) (TailShapes : List Nat) (init : Nat → α)
    (heap : Heap α) :
    (TensorNd.Construct HeadShape TailShapes init heap).1
      = { raw_shapes_ := HeadShape :: TailShapes, data_ := some heap.length } := by
  simp [TensorNd.Construct, StoreShape_eq]

theorem Construct_snd {α : Type} (HeadShape : Nat) (TailShapes : List Nat) (init : Nat → α)
    (heap : Heap α) :
    (TensorNd.Construct HeadShape TailShapes init heap).2
      = heap ++ [(List.range ((HeadShape :: TailShapes).prod % U32)).map init] := by
  simp [TensorNd.Construct, StoreShape_eq, accumulate_one]

theorem size_eq (t : TensorNd) (h : t.raw_shapes_ ≠ []) :
    t.size = Outcome.ok (t.raw_shapes_.prod % U32) := by
  have hl : t.raw_shapes_.length > 0 := List.length_pos.mpr h
  simp [TensorNd.size, TensorNd.raw_shapes, hl, accumulate_one]

/-! ## The partial-index offset -/

theorem foldl_snoc_map {β : Type} (f : Nat → β) (l : List Nat) (acc : List β) :
    l.foldl (fun a i => a ++ [f i]) acc = acc ++ l.map f := by
  induction l generalizing acc with
  | nil => simp
  | cons x xs ih => simp [ih]

theorem padOffsets_eq (rank : Nat) (offsets : List Nat) :
    padOffsets rank offsets = (List.range rank).map (padded offsets) := by
  have h := foldl_snoc_map (padded offsets) (List.range rank) []
  simp only [List.nil_append] at h
  rw [← h]
  unfold padOffsets
  congr 1
  funext a i
  unfold padded
  split <;> rfl

theorem padOffsets_getD (rank : Nat) (offsets : List Nat) (i : Nat) (hi : i < rank) :
    (padOffsets rank offsets).getD i 0 = padded offsets i := by
  rw [padOffsets_eq]
  simp [List.getD, hi]

theorem padOffsets_length (rank : Nat) (offsets : List Nat) :
    (padOffsets rank offsets).length = rank := by
  simp [padOffsets_eq]

theorem hornerUpTo_succ (d x : Nat → Nat) (m : Nat) :
    hornerUpTo d x (m + 1) = hornerUpTo d x m * d m + x m := by
  simp [hornerUpTo, List.range_succ, List.foldl_append]

theorem getElem?_getD (s : List Nat) (m : Nat) (hm : m < s.length) :
    s[m]? = some (s.getD m 0) := by
  simp [List.getD, List.getElem?_eq_getElem hm]

/-- The checked 32-bit loop over the first `m` positions: it aborts when some
position fails its range check and otherwise holds the unbounded accumulation
reduced modulo `2^32`. -/
theorem offsetLoop_upTo (s o : List Nat) (x : Nat → Nat) (m : Nat) (hm : m ≤ s.length)
    (hx : ∀ i, i < m → o.getD i 0 = x i) :
    (List.range m).foldl (offsetStep s o) (Outcome.ok 0) =
      if (List.range m).all (fun i => decide (x i < s.getD i 0)) then
        Outcome.ok (hornerUpTo (fun i => s.getD i 0) x m % U32)
      else Outcome.fatal := by
  induction m with
  | zero => simp [hornerUpTo, U32]
  | succ m ih =>
    have ih1 := ih (Nat.le_of_succ_le hm) (fun i hi => hx i (Nat.lt_succ_of_lt hi))
    have hs : s[m]? = some (s.getD m 0) := getElem?_getD s m hm
    rw [List.range_succ, List.foldl_append, ih1, List.all_append, hornerUpTo_succ]
    simp only [List.foldl_cons, List.foldl_nil, List.all_cons, List.all_nil, Bool.and_true]
    by_cases hall : (List.range m).all (fun i => decide (x i < s.getD i 0)) = true
    · simp only [hall, if_true, Bool.true_and, offsetStep, hs, hx m (Nat.lt_succ_self m)]
      by_cases hc : x m < s.getD m 0
      · simp only [hc, if_true, decide_True]
        congr 1
        rw [Nat.add_mod, Nat.mod_mod, ← Nat.add_mod, Nat.add_mod, Nat.mul_mod, Nat.mod_mod,
          ← Nat.mul_mod, ← Nat.add_mod]
      · simp [hc]
    · have hall1 : (List.range m).all (fun i => decide (x i < s.getD i 0)) = false :=
        Bool.eq_false_iff.mpr hall
      simp only [hall1, Bool.false_and, Bool.false_eq_true, if_false, offsetStep]

theorem hornerOffset_eq (dims idx : List Nat) :
    hornerOffset dims idx = hornerUpTo (fun i => dims.getD i 0) (padded idx) dims.length := rfl

/-- What `raw_ptr(offsets)` computes once the length check has passed. -/
theorem raw_ptr_offsets_eq (t : TensorNd) (idx : List Nat)
    (hlen : idx.length < t.raw_shapes_.length) :
    t.raw_ptr_offsets idx =
      if (List.range t.raw_shapes_.length).all
          (fun i => decide (padded idx i < t.raw_shapes_.getD i 0)) then
        t.raw_ptr_offset (hornerOffset t.raw_shapes_ idx % U32)
      else Outcome.fatal := by
  have hloop := offsetLoop_upTo t.raw_shapes_ (padOffsets t.raw_shapes_.length idx)
    (padded idx) t.raw_shapes_.length (Nat.le_refl _)
    (fun i hi => padOffsets_getD t.raw_shapes_.length idx i hi)
  unfold TensorNd.raw_ptr_offsets
  simp only [hlen, if_true, padOffsets_length]
  unfold offsetLoop
  rw [padOffsets_length, hloop, hornerOffset_eq]
  by_cases hall : (List.range t.raw_shapes_.length).all
      (fun i => decide (padded idx i < t.raw_shapes_.getD i 0)) = true
  · simp only [hall, if_true]
  · simp only [hall, Bool.false_eq_true, if_false]

theorem raw_ptr_offsets_too_long (t : TensorNd) (idx : List Nat)
    (h : ¬ idx.length < t.raw_shapes_.length) : t.raw_ptr_offsets idx = Outcome.fatal := by
  unfold TensorNd.raw_ptr_offsets
  rw [if_neg h]

theorem padded_snoc_zero (idx : List Nat) (i : Nat) : padded (idx ++ [0]) i = padded idx i := by
  unfold padded
  by_cases h1 : i < idx.length
  · have h2 : i < (idx ++ [0]).length := by simp; omega
    simp only [h1, h2, if_true, List.getD_eq_getElem?_getD]
    rw [List.getElem?_append_left h1]
  · by_cases h3 : i = idx.length
    · subst h3
      simp [List.getD]
    · have h2 : ¬ i < (idx ++ [0]).length := by simp; omega
      simp only [h1, h2, if_false]

theorem padOffsets_snoc_zero (rank : Nat) (idx : List Nat) :
    padOffsets rank (idx ++ [0]) = padOffsets rank idx := by
  rw [padOffsets_eq, padOffsets_eq]
  apply List.map_congr_left
  intro i _
  exact padded_snoc_zero idx i

theorem all_checks_iff (dims idx : List Nat) :
    (List.range dims.length).all (fun i => decide (padded idx i < dims.getD i 0)) = true
      ↔ ∀ i, i < dims.length → padded idx i < dims.getD i 0 := by
  simp [List.all_eq_true]

theorem checks_of_valid (dims idx : List Nat) (hpos : ∀ d ∈ dims, 0 < d)
    (hidx : ∀ i, i < idx.length → idx.getD i 0 < dims.getD i 0) :
    ∀ i, i < dims.length → padded idx i < dims.getD i 0 := by
  intro i hi
  unfold padded
  split
  · next h => exact hidx i h
  · have hmem : dims.getD i 0 ∈ dims := by
      rw [List.getD_eq_getElem dims 0 hi]
      exact List.getElem_mem hi
    exact hpos _ hmem

/-- An accepted partial index: the pointer is `data_` advanced by the
accumulation reduced modulo `2^32`. -/
theorem raw_ptr_offsets_ok (t : TensorNd) (a : Nat) (idx : List Nat) (hd : t.data_ = some a)
    (hpos : ∀ d ∈ t.raw_shapes_, 0 < d) (hlen : idx.length < t.raw_shapes_.length)
    (hidx : ∀ i, i < idx.length → idx.getD i 0 < t.raw_shapes_.getD i 0) :
    t.raw_ptr_offsets idx = Outcome.ok ⟨a, hornerOffset t.raw_shapes_ idx % U32⟩ := by
  have hall := (all_checks_iff t.raw_shapes_ idx).mpr (checks_of_valid t.raw_shapes_ idx hpos hidx)
  rw [raw_ptr_offsets_eq t idx hlen]
  simp only [hall, if_true, TensorNd.raw_ptr_offset, hd]

/-- A supplied index that is out of range aborts. -/
theorem raw_ptr_offsets_bad (t : TensorNd) (idx : List Nat) (i : Nat) (hi : i < idx.length)
    (hbad : ¬ idx.getD i 0 < t.raw_shapes_.getD i 0) :
    t.raw_ptr_offsets idx = Outcome.fatal := by
  by_cases hlen : idx.length < t.raw_shapes_.length
  · rw [raw_ptr_offsets_eq t idx hlen]
    have hnall : ¬ (List.range t.raw_shapes_.length).all
        (fun i => decide (padded idx i < t.raw_shapes_.getD i 0)) = true := by
      intro hall
      have h := (all_checks_iff _ idx).mp hall i (Nat.lt_trans hi hlen)
      simp only [padded, hi, if_true] at h
      exact hbad h
    simp only [hnall, Bool.false_eq_true, if_false]
  · exact raw_ptr_offsets_too_long t idx hlen

theorem prod_drop_take_succ (dims : List Nat) (m i : Nat) (hm : m < dims.length) (hi : i < m) :
    ((dims.take (m + 1)).drop (i + 1)).prod
      = ((dims.take m).drop (i + 1)).prod * dims.getD m 0 := by
  rw [List.take_succ, getElem?_getD dims m hm]
  simp only [Option.toList]
  rw [List.drop_append_of_le_length (by simp [List.length_take]; omega)]
  simp

theorem horner_closed (dims : List Nat) (x : Nat → Nat) (m : Nat) (hm : m ≤ dims.length) :
    hornerUpTo (fun i => dims.getD i 0) x m
      = ((List.range m).map (fun i => x i * ((dims.take m).drop (i + 1)).prod)).sum := by
  induction m with
  | zero => simp [hornerUpTo]
  | succ m ih =>
    have ih1 := ih (Nat.le_of_succ_le hm)
    rw [hornerUpTo_succ, List.sum_range_succ, ih1]
    have hlast : ((dims.take (m + 1)).drop (m + 1)).prod = 1 := by
      rw [List.drop_eq_nil_of_le (by simp [List.length_take])]
      simp
    rw [hlast, Nat.mul_one]
    congr 1
    rw [← List.sum_map_mul_right]
    congr 1
    apply List.map_congr_left
    intro i hi
    rw [List.mem_range] at hi
    rw [prod_drop_take_succ dims m i hm hi, Nat.mul_assoc]

theorem horner_lt (dims : List Nat) (x : Nat → Nat) (m : Nat) (hm : m ≤ dims.length)
    (hx : ∀ i, i < m → x i < dims.getD i 0) :
    hornerUpTo (fun i => dims.getD i 0) x m < (dims.take m).prod := by
  induction m with
  | zero => simp [hornerUpTo]
  | succ m ih =>
    have ih1 := ih (Nat.le_of_succ_le hm) (fun i hi => hx i (Nat.lt_succ_of_lt hi))
    rw [hornerUpTo_succ, List.take_succ, getElem?_getD dims m hm]
    simp only [Option.toList, List.prod_append, List.prod_singleton]
    have h1 := hx m (Nat.lt_succ_self m)
    calc hornerUpTo (fun i => dims.getD i 0) x m * dims.getD m 0 + x m
        < hornerUpTo (fun i => dims.getD i 0) x m * dims.getD m 0 + dims.getD m 0 :=
          Nat.add_lt_add_left h1 _
      _ = (hornerUpTo (fun i => dims.getD i 0) x m + 1) * dims.getD m 0 := by ring
      _ ≤ (dims.take m).prod * dims.getD m 0 := Nat.mul_le_mul_right _ ih1

theorem sum_padded_tail (idx : List Nat) (g : Nat → Nat) (m : Nat) (hm : idx.length ≤ m) :
    ((List.range m).map (fun i => padded idx i * g i)).sum
      = ((List.range idx.length).map (fun i => idx.getD i 0 * g i)).sum := by
  induction m, hm using Nat.le_induction with
  | base =>
    congr 1
    apply List.map_congr_left
    intro i hi
    rw [List.mem_range] at hi
    simp [padded, hi]
  | succ m hm ih =>
    rw [List.sum_range_succ, ih]
    have : padded idx m = 0 := by simp [padded]; omega
    simp [this]

theorem hornerOffset_eq_rowMajorOffset (dims idx : List Nat) (h : idx.length ≤ dims.length) :
    hornerOffset dims idx = rowMajorOffset dims idx := by
  rw [hornerOffset_eq, horner_closed dims (padded idx) dims.length (Nat.le_refl _),
    List.take_length]
  exact sum_padded_tail idx (fun i => (dims.drop (i + 1)).prod) dims.length h

theorem hornerOffset_lt_prod (dims idx : List Nat)
    (hx : ∀ i, i < dims.length → padded idx i < dims.getD i 0) :
    hornerOffset dims idx < dims.prod := by
  have h := horner_lt dims (padded idx) dims.length (Nat.le_refl _) hx
  rwa [List.take_length] at h

/-! ## The free store -/

theorem lt_length_of_getElem? {β : Type} (l : List β) (a : Nat) (b : β) (h : l[a]? = some b) :
    a < l.length := by
  by_contra hc
  rw [List.getElem?_eq_none (Nat.le_of_not_lt hc)] at h
  exact Option.noConfusion h

theorem getElem?_set_same {β : Type} (l : List β) (a : Nat) (b c : β) (h : l[a]? = some b) :
    (l.set a c)[a]? = some c :=
  List.getElem?_set_self (lt_length_of_getElem? l a b h)

theorem set_self_of_getElem? {β : Type} (l : List β) (a : Nat) (b : β) (h : l[a]? = some b) :
    l.set a b = l := by
  apply List.ext_getElem?
  intro i
  rw [List.getElem?_set]
  split
  · next hi => subst hi; simp [lt_length_of_getElem? l _ b h, h]
  · rfl

theorem store_ok {α : Type} (heap : Heap α) (a i : Nat) (v : α) (buf : List α)
    (hbuf : heap[a]? = some buf) (hi : i < buf.length) :
    store ⟨a, i⟩ v heap = Outcome.ok (heap.set a (buf.set i v)) := by
  simp [store, hbuf, hi]

theorem store_overrun {α : Type} (heap : Heap α) (a i : Nat) (v : α) (buf : List α)
    (hbuf : heap[a]? = some buf) (hi : ¬ i < buf.length) :
    store ⟨a, i⟩ v heap = Outcome.overrun := by
  simp [store, hbuf, hi]

theorem fillLoop_upTo {α : Type} (heap : Heap α) (a : Nat) (v : α) (buf : List α)
    (hbuf : heap[a]? = some buf) (m : Nat) (hm : m ≤ buf.length) :
    (List.range m).foldl (fillStep ⟨a, 0⟩ v) (Outcome.ok heap)
      = Outcome.ok (heap.set a (List.replicate m v ++ buf.drop m)) := by
  induction m with
  | zero => simp [set_self_of_getElem? heap a buf hbuf]
  | succ m ih =>
    have hlt : m < buf.length := hm
    rw [List.range_succ, List.foldl_append, ih (Nat.le_of_lt hlt)]
    simp only [List.foldl_cons, List.foldl_nil, fillStep, Nat.zero_add]
    have hB : (heap.set a (List.replicate m v ++ buf.drop m))[a]?
        = some (List.replicate m v ++ buf.drop m) := getElem?_set_same heap a buf _ hbuf
    rw [store_ok _ a m v _ hB (by simp; omega), List.set_set]
    congr 2
    rw [List.set_append_right m v (by simp), List.length_replicate, Nat.sub_self,
      List.drop_eq_getElem_cons hlt, List.set_cons_zero, List.replicate_succ',
      List.append_assoc]
    rfl

theorem std_copy_ok {α : Type} (vs : List α) (heap : Heap α) (a off : Nat) (buf : List α)
    (hbuf : heap[a]? = some buf) (hfit : off + vs.length ≤ buf.length) :
    std_copy vs ⟨a, off⟩ heap
      = Outcome.ok (heap.set a (buf.take off ++ vs ++ buf.drop (off + vs.length))) := by
  induction vs generalizing heap off buf with
  | nil => simp [std_copy, set_self_of_getElem? heap a buf hbuf]
  | cons v vs ih =>
    have hlt : off < buf.length := by simp at hfit; omega
    have hB : (heap.set a (buf.set off v))[a]? = some (buf.set off v) :=
      getElem?_set_same heap a buf _ hbuf
    simp only [std_copy, store_ok heap a off v buf hbuf hlt]
    rw [ih (heap.set a (buf.set off v)) (off + 1) (buf.set off v) hB
      (by simp at hfit ⊢; omega), List.set_set]
    congr 2
    have e1 : (buf.set off v).take (off + 1) = buf.take off ++ [v] := by
      rw [List.take_succ, List.getElem?_set_self hlt, List.set_take,
        List.set_eq_of_length_le (by simp)]
      rfl
    have e2 : (buf.set off v).drop (off + 1 + vs.length) = buf.drop (off + (vs.length + 1)) := by
      rw [List.drop_set_of_lt v buf (by omega)]
      congr 1
      omega
    rw [e1, e2]
    simp

theorem std_copy_overrun {α : Type} (vs : List α) (heap : Heap α) (a off : Nat) (buf : List α)
    (hbuf : heap[a]? = some buf) (hoff : off ≤ buf.length)
    (hbig : buf.length < off + vs.length) :
    std_copy vs ⟨a, off⟩ heap = Outcome.overrun := by
  induction vs generalizing heap off buf with
  | nil => simp at hbig; omega
  | cons v vs ih =>
    by_cases hlt : off < buf.length
    · have hB : (heap.set a (buf.set off v))[a]? = some (buf.set off v) :=
        getElem?_set_same heap a buf _ hbuf
      simp only [std_copy, store_ok heap a off v buf hbuf hlt]
      exact ih (heap.set a (buf.set off v)) (off + 1) (buf.set off v) hB
        (by simp; omega) (by simp at hbig ⊢; omega)
    · simp only [std_copy, store_overrun heap a off v buf hbuf hlt]

/-! ## Members acting on the buffer -/

theorem Fill_eq {α : Type} (t : TensorNd) (heap : Heap α) (v : α) (a : Nat) (buf : List α)
    (hs : t.raw_shapes_ ≠ []) (hd : t.data_ = some a) (hbuf : heap[a]? = some buf)
    (hlen : buf.length = t.raw_shapes_.prod % U32) :
    t.Fill v heap = Outcome.ok (heap.set a (List.replicate (t.raw_shapes_.prod % U32) v)) := by
  have hl : t.raw_shapes_.length > 0 := List.length_pos.mpr hs
  have hf := fillLoop_upTo heap a v buf hbuf buf.length (Nat.le_refl _)
  rw [List.drop_length, List.append_nil, hlen] at hf
  unfold TensorNd.Fill
  simp only [hd, hl, size_eq t hs, TensorNd.raw_ptr, ne_eq, reduceCtorEq, not_false_eq_true,
    if_true]
  exact hf

theorem Fill_values_eq {α : Type} (t : TensorNd) (heap : Heap α) (values : List α) (a : Nat)
    (hs : t.raw_shapes_ ≠ []) (hd : t.data_ = some a) :
    t.Fill_values values heap =
      if t.raw_shapes_.prod % U32 = values.length % U32 then std_copy values ⟨a, 0⟩ heap
      else Outcome.fatal := by
  have hl : t.raw_shapes_.length > 0 := List.length_pos.mpr hs
  unfold TensorNd.Fill_values
  simp only [hd, hl, size_eq t hs, if_true]

theorem Fill_values_ok {α : Type} (t : TensorNd) (heap : Heap α) (values : List α) (a : Nat)
    (buf : List α) (hs : t.raw_shapes_ ≠ []) (hd : t.data_ = some a)
    (hbuf : heap[a]? = some buf) (hlen : buf.length = t.raw_shapes_.prod % U32)
    (hv : values.length = t.raw_shapes_.prod % U32) :
    t.Fill_values values heap = Outcome.ok (heap.set a values) := by
  have hmod : t.raw_shapes_.prod % U32 = values.length % U32 := by
    rw [hv, Nat.mod_mod]
  rw [Fill_values_eq t heap values a hs hd, if_pos hmod,
    std_copy_ok values heap a 0 buf hbuf (by omega)]
  have hdrop : buf.drop (0 + values.length) = [] := List.drop_eq_nil_of_le (by omega)
  rw [hdrop, List.take_zero, List.nil_append, List.append_nil]

theorem Fill_values_overrun {α : Type} (t : TensorNd) (heap : Heap α) (values : List α)
    (a : Nat) (buf : List α) (hs : t.raw_shapes_ ≠ []) (hd : t.data_ = some a)
    (hbuf : heap[a]? = some buf) (hlen : buf.length = t.raw_shapes_.prod % U32)
    (hmod : t.raw_shapes_.prod % U32 = values.length % U32)
    (hne : values.length ≠ t.raw_shapes_.prod % U32) :
    t.Fill_values values heap = Outcome.overrun := by
  rw [Fill_values_eq t heap values a hs hd, if_pos hmod]
  have hle : values.length % U32 ≤ values.length := Nat.mod_le _ _
  exact std_copy_overrun values heap a 0 buf hbuf (Nat.zero_le _) (by omega)

theorem Fill_values_inv {α : Type} (t : TensorNd) (heap heap1 : Heap α) (values : List α)
    (a : Nat) (buf : List α) (hs : t.raw_shapes_ ≠ []) (hd : t.data_ = some a)
    (hbuf : heap[a]? = some buf) (hlen : buf.length = t.raw_shapes_.prod % U32)
    (hok : t.Fill_values values heap = Outcome.ok heap1) :
    values.length = t.raw_shapes_.prod % U32 := by
  by_contra hne
  by_cases hmod : t.raw_shapes_.prod % U32 = values.length % U32
  · rw [Fill_values_overrun t heap values a buf hs hd hbuf hlen hmod hne] at hok
    exact Outcome.noConfusion hok
  · rw [Fill_values_eq t heap values a hs hd, if_neg hmod] at hok
    exact Outcome.noConfusion hok

theorem store_inv {α : Type} (p : Ptr) (v : α) (heap heap1 : Heap α)
    (h : store p v heap = Outcome.ok heap1) :
    ∃ buf, heap[p.base]? = some buf ∧ heap1 = heap.set p.base (buf.set p.off v) := by
  unfold store at h
  split at h
  · exact Outcome.noConfusion h
  · next buf hb =>
    split at h
    · exact ⟨buf, hb, (Outcome.ok.inj h).symm⟩
    · exact Outcome.noConfusion h

theorem live_construct {α : Type} (HeadShape : Nat) (TailShapes : List Nat) (init : Nat → α)
    (heap : Heap α) :
    Live (HeadShape :: TailShapes) (TensorNd.Construct HeadShape TailShapes init heap).1
      (TensorNd.Construct HeadShape TailShapes init heap).2 := by
  rw [Construct_fst, Construct_snd]
  refine ⟨rfl, List.cons_ne_nil _ _, heap.length,
    (List.range ((HeadShape :: TailShapes).prod % U32)).map init, rfl, ?_, ?_⟩
  · simp
  · simp

theorem live_store {α : Type} (dims : List Nat) (t : TensorNd) (heap heap1 : Heap α) (p : Ptr)
    (v : α) (hl : Live dims t heap) (h : store p v heap = Outcome.ok heap1) :
    Live dims t heap1 := by
  obtain ⟨hs, hne, a, buf, hd, hbuf, hlen⟩ := hl
  obtain ⟨buf1, hb1, rfl⟩ := store_inv p v heap heap1 h
  by_cases hpa : p.base = a
  · refine ⟨hs, hne, a, buf1.set p.off v, hd, ?_, ?_⟩
    · rw [hpa]; exact getElem?_set_same heap a buf _ hbuf
    · rw [hpa, hbuf] at hb1
      cases hb1
      simpa using hlen
  · refine ⟨hs, hne, a, buf, hd, ?_, hlen⟩
    rw [List.getElem?_set_ne hpa]
    exact hbuf

theorem reachable_live {α : Type} (HeadShape : Nat) (TailShapes : List Nat) (t : TensorNd)
    (heap : Heap α) (hr : Reachable HeadShape TailShapes t heap) :
    Live (HeadShape :: TailShapes) t heap := by
  induction hr with
  | construct init heap hb => exact live_construct HeadShape TailShapes init heap
  | copy _ ih => exact ih
  | fill value heap1 _ hf ih =>
    obtain ⟨hs, hne, a, buf, hd, hbuf, hlen⟩ := ih
    rw [← hs] at hne hlen
    rw [Fill_eq _ _ value a buf hne hd hbuf hlen] at hf
    cases hf
    refine ⟨hs, hs ▸ hne, a, _, hd, getElem?_set_same _ a buf _ hbuf, ?_⟩
    rw [← hs]; simp
  | fill_values values heap1 _ hf ih =>
    obtain ⟨hs, hne, a, buf, hd, hbuf, hlen⟩ := ih
    rw [← hs] at hne hlen
    have hv := Fill_values_inv _ _ heap1 values a buf hne hd hbuf hlen hf
    rw [Fill_values_ok _ _ values a buf hne hd hbuf hlen hv] at hf
    cases hf
    refine ⟨hs, hs ▸ hne, a, _, hd, getElem?_set_same _ a buf _ hbuf, ?_⟩
    rw [← hs]; exact hv
  | write p v heap1 _ hst ih => exact live_store _ _ _ heap1 p v ih hst
  | alloc buf1 _ ih =>
    obtain ⟨hs, hne, a, buf, hd, hbuf, hlen⟩ := ih
    refine ⟨hs, hne, a, buf, hd, ?_, hlen⟩
    rw [List.getElem?_append_left (lt_length_of_getElem? _ a buf hbuf)]
    exact hbuf


theorem copy_eq (t : TensorNd) : t.copy = t := rfl

theorem load_set {α : Type} (heap : Heap α) (a i : Nat) (buf newbuf : List α)
    (hbuf : heap[a]? = some buf) : load (heap.set a newbuf) ⟨a, i⟩ = newbuf[i]? := by
  simp [load, getElem?_set_same heap a buf newbuf hbuf]

/-- Reading back after `Fill(value)`. -/
theorem Fill_reads {α : Type} (dims : List Nat) (t : TensorNd) (heap : Heap α) (v : α)
    (hl : Live dims t heap) :
    ∃ heap1, t.Fill v heap = Outcome.ok heap1 ∧ t.size = Outcome.ok (dims.prod % U32) ∧
      ∀ i, i < dims.prod % U32 →
        ∃ p, t.raw_ptr_offset i = Outcome.ok p ∧ load heap1 p = some v := by
  obtain ⟨hs, hne, a, buf, hd, hbuf, hlen⟩ := hl
  subst hs
  refine ⟨_, Fill_eq t heap v a buf hne hd hbuf hlen, size_eq t hne, fun i hi => ?_⟩
  refine ⟨⟨a, i⟩, by simp [TensorNd.raw_ptr_offset, hd], ?_⟩
  rw [load_set heap a i buf _ hbuf]
  simp [hi]

/-- Reading back after `Fill(values)` with `values.size() == size()`. -/
theorem Fill_values_reads {α : Type} (dims : List Nat) (t : TensorNd) (heap : Heap α)
    (values : List α) (hl : Live dims t heap) (hv : t.size = Outcome.ok values.length) :
    values.length = dims.prod % U32 ∧
    ∃ a, t.data_ = some a ∧ t.Fill_values values heap = Outcome.ok (heap.set a values) ∧
      ∀ i, load (heap.set a values) ⟨a, i⟩ = values[i]? := by
  obtain ⟨hs, hne, a, buf, hd, hbuf, hlen⟩ := hl
  subst hs
  rw [size_eq t hne] at hv
  have hv1 : values.length = t.raw_shapes_.prod % U32 := (Outcome.ok.inj hv).symm
  exact ⟨hv1, a, hd, Fill_values_ok t heap values a buf hne hd hbuf hlen hv1,
    fun i => load_set heap a i buf values hbuf⟩

/-- An accepted partial index passed every range check, and the pointer
returned is `data_` advanced by the accumulation reduced modulo `2^32`. -/
theorem raw_ptr_offsets_inv (t : TensorNd) (a : Nat) (idx : List Nat) (p : Ptr)
    (hd : t.data_ = some a) (h : t.raw_ptr_offsets idx = Outcome.ok p) :
    idx.length < t.raw_shapes_.length
      ∧ (∀ i, i < t.raw_shapes_.length → padded idx i < t.raw_shapes_.getD i 0)
      ∧ p = ⟨a, hornerOffset t.raw_shapes_ idx % U32⟩ := by
  by_cases hlen : idx.length < t.raw_shapes_.length
  · rw [raw_ptr_offsets_eq t idx hlen] at h
    by_cases hall : (List.range t.raw_shapes_.length).all
        (fun i => decide (padded idx i < t.raw_shapes_.getD i 0)) = true
    · simp only [hall, if_true, TensorNd.raw_ptr_offset, hd] at h
      exact ⟨hlen, (all_checks_iff _ idx).mp hall, (Outcome.ok.inj h).symm⟩
    · simp only [hall, Bool.false_eq_true, if_false] at h
      exact Outcome.noConfusion h
  · rw [raw_ptr_offsets_too_long t idx hlen] at h
    exact Outcome.noConfusion h

/-- On a shape whose product fits in 32 bits an accepted partial index is
the row-major offset and lies below the product. -/
theorem raw_ptr_offsets_in_range (t : TensorNd) (a : Nat) (idx : List Nat) (p : Ptr)
    (hd : t.data_ = some a) (h : t.raw_ptr_offsets idx = Outcome.ok p)
    (hfit : t.raw_shapes_.prod < U32) :
    p = ⟨a, rowMajorOffset t.raw_shapes_ idx⟩
      ∧ rowMajorOffset t.raw_shapes_ idx < t.raw_shapes_.prod := by
  obtain ⟨hlen, hchk, hp⟩ := raw_ptr_offsets_inv t a idx p hd h
  have hlt := hornerOffset_lt_prod t.raw_shapes_ idx hchk
  have heq := hornerOffset_eq_rowMajorOffset t.raw_shapes_ idx (Nat.le_of_lt hlen)
  rw [Nat.mod_eq_of_lt (Nat.lt_trans hlt hfit), heq] at hp
  rw [heq] at hlt
  exact ⟨hp, hlt⟩

/-! ## Bounds and order of the partial-index offset -/

theorem prod_pos_of_pos (l : List Nat) (h : ∀ d ∈ l, 0 < d) : 0 < l.prod := by
  induction l with
  | nil => simp
  | cons x xs ih =>
    rw [List.prod_cons]
    exact Nat.mul_pos (h x (List.mem_cons_self x xs))
      (ih (fun d hd => h d (List.mem_cons_of_mem x hd)))

theorem prod_take_le (dims : List Nat) (m : Nat) (hpos : ∀ d ∈ dims, 0 < d) :
    (dims.take m).prod ≤ dims.prod := by
  have h := List.prod_take_mul_prod_drop dims m
  have hd : 0 < (dims.drop m).prod :=
    prod_pos_of_pos _ (fun d hd => hpos d (List.mem_of_mem_drop hd))
  calc (dims.take m).prod = (dims.take m).prod * 1 := (Nat.mul_one _).symm
    _ ≤ (dims.take m).prod * (dims.drop m).prod := Nat.mul_le_mul_left _ hd
    _ = dims.prod := h

theorem pos_of_checks (dims idx : List Nat)
    (hchk : ∀ i, i < dims.length → padded idx i < dims.getD i 0) : ∀ d ∈ dims, 0 < d := by
  intro d hd
  obtain ⟨i, hi, rfl⟩ := List.getElem_of_mem hd
  have h := hchk i hi
  rw [List.getD_eq_getElem dims 0 hi] at h
  exact Nat.lt_of_le_of_lt (Nat.zero_le _) h

/-- With every range check passed and a dimension product below `2^32`, the
unbounded accumulation stays below `2^32` after every multiplication and every
addition. -/
theorem horner_no_wrap (dims idx : List Nat) (m : Nat) (hm : m < dims.length)
    (hchk : ∀ i, i < dims.length → padded idx i < dims.getD i 0) (hfit : dims.prod < U32) :
    hornerUpTo (fun i => dims.getD i 0) (padded idx) m < U32
    ∧ hornerUpTo (fun i => dims.getD i 0) (padded idx) m * dims.getD m 0 < U32
    ∧ hornerUpTo (fun i => dims.getD i 0) (padded idx) m * dims.getD m 0 + padded idx m
        < U32 := by
  have hpos := pos_of_checks dims idx hchk
  have h1 := horner_lt dims (padded idx) (m + 1) hm (fun i hi => hchk i (by omega))
  rw [hornerUpTo_succ] at h1
  have h2 := prod_take_le dims (m + 1) hpos
  have h0 := horner_lt dims (padded idx) m (Nat.le_of_lt hm) (fun i hi => hchk i (by omega))
  have h3 := prod_take_le dims m hpos
  omega

/-- The state of the 32-bit loop before iteration `m` is the unbounded
accumulation itself. -/
theorem offsetLoop_exact (dims idx : List Nat) (m : Nat) (hm : m ≤ dims.length)
    (hchk : ∀ i, i < dims.length → padded idx i < dims.getD i 0) (hfit : dims.prod < U32) :
    (List.range m).foldl (offsetStep dims (padOffsets dims.length idx)) (Outcome.ok 0)
      = Outcome.ok (hornerUpTo (fun i => dims.getD i 0) (padded idx) m) := by
  have hloop := offsetLoop_upTo dims (padOffsets dims.length idx) (padded idx) m hm
    (fun i hi => padOffsets_getD dims.length idx i (by omega))
  have hall : (List.range m).all (fun i => decide (padded idx i < dims.getD i 0)) = true := by
    simp only [List.all_eq_true, List.mem_range, decide_eq_true_eq]
    exact fun i hi => hchk i (by omega)
  rw [hloop]
  simp only [hall, if_true]
  have h0 := horner_lt dims (padded idx) m hm (fun i hi => hchk i (by omega))
  have h3 := prod_take_le dims m (pos_of_checks dims idx hchk)
  rw [Nat.mod_eq_of_lt (by omega)]

theorem hornerUpTo_congr (d x y : Nat → Nat) (m : Nat) (h : ∀ i, i < m → x i = y i) :
    hornerUpTo d x m = hornerUpTo d y m := by
  induction m with
  | zero => rfl
  | succ m ih =>
    rw [hornerUpTo_succ, hornerUpTo_succ, ih (fun i hi => h i (by omega)), h m (by omega)]

theorem horner_lt_of_lex (d x y : Nat → Nat) (m : Nat) (hx : ∀ i, i < m → x i < d i)
    (h : lexLtUpTo x y m) : hornerUpTo d x m < hornerUpTo d y m := by
  induction m with
  | zero =>
    obtain ⟨j, hj, _⟩ := h
    exact absurd hj (Nat.not_lt_zero j)
  | succ m ih =>
    obtain ⟨j, hj, heq, hlt⟩ := h
    rw [hornerUpTo_succ, hornerUpTo_succ]
    by_cases hjm : j < m
    · have h1 := ih (fun i hi => hx i (by omega)) ⟨j, hjm, heq, hlt⟩
      have h2 := hx m (by omega)
      calc hornerUpTo d x m * d m + x m < hornerUpTo d x m * d m + d m :=
            Nat.add_lt_add_left h2 _
        _ = (hornerUpTo d x m + 1) * d m := by ring
        _ ≤ hornerUpTo d y m * d m := Nat.mul_le_mul_right _ h1
        _ ≤ hornerUpTo d y m * d m + y m := Nat.le_add_right _ _
    · have hjeq : j = m := by omega
      subst hjeq
      rw [hornerUpTo_congr d x y j heq]
      exact Nat.add_lt_add_left hlt _

theorem lex_trichotomy (x y : Nat → Nat) (m : Nat) :
    (∀ i, i < m → x i = y i) ∨ lexLtUpTo x y m ∨ lexLtUpTo y x m := by
  induction m with
  | zero => exact Or.inl (fun i hi => absurd hi (Nat.not_lt_zero i))
  | succ m ih =>
    rcases ih with heq | ⟨j, hj, h1, h2⟩ | ⟨j, hj, h1, h2⟩
    · rcases Nat.lt_trichotomy (x m) (y m) with hlt | heq2 | hgt
      · exact Or.inr (Or.inl ⟨m, by omega, heq, hlt⟩)
      · left
        intro i hi
        by_cases him : i < m
        · exact heq i him
        · have : i = m := by omega
          rw [this]; exact heq2
      · exact Or.inr (Or.inr ⟨m, by omega, fun i hi => (heq i hi).symm, hgt⟩)
    · exact Or.inr (Or.inl ⟨j, by omega, h1, h2⟩)
    · exact Or.inr (Or.inr ⟨j, by omega, h1, h2⟩)

theorem horner_lt_iff_lex (d x y : Nat → Nat) (m : Nat) (hx : ∀ i, i < m → x i < d i)
    (hy : ∀ i, i < m → y i < d i) :
    hornerUpTo d x m < hornerUpTo d y m ↔ lexLtUpTo x y m := by
  constructor
  · intro hlt
    rcases lex_trichotomy x y m with heq | h | h
    · rw [hornerUpTo_congr d x y m heq] at hlt
      exact absurd hlt (Nat.lt_irrefl _)
    · exact h
    · have := horner_lt_of_lex d y x m hy h
      omega
  · exact horner_lt_of_lex d x y m hx

theorem horner_eq_iff (d x y : Nat → Nat) (m : Nat) (hx : ∀ i, i < m → x i < d i)
    (hy : ∀ i, i < m → y i < d i) :
    hornerUpTo d x m = hornerUpTo d y m ↔ ∀ i, i < m → x i = y i := by
  constructor
  · intro heq
    rcases lex_trichotomy x y m with h | h | h
    · exact h
    · have := horner_lt_of_lex d x y m hx h
      omega
    · have := horner_lt_of_lex d y x m hy h
      omega
  · exact hornerUpTo_congr d x y m

theorem lex_cons_cons (a b : Nat) (l₁ l₂ : List Nat) :
    List.Lex (fun u v => u < v) (a :: l₁) (b :: l₂)
      ↔ a < b ∨ (a = b ∧ List.Lex (fun u v => u < v) l₁ l₂) := by
  constructor
  · intro h
    cases h with
    | cons h1 => exact Or.inr ⟨rfl, h1⟩
    | rel h1 => exact Or.inl h1
  · rintro (h | ⟨rfl, h⟩)
    · exact List.Lex.rel h
    · exact List.Lex.cons h

theorem lex_map_range (n : Nat) (f g : Nat → Nat) :
    List.Lex (fun u v => u < v) ((List.range n).map f) ((List.range n).map g)
      ↔ lexLtUpTo f g n := by
  induction n generalizing f g with
  | zero =>
    simp only [List.range_zero, List.map_nil, List.Lex.not_nil_right, false_iff]
    rintro ⟨j, hj, _⟩
    exact absurd hj (Nat.not_lt_zero j)
  | succ n ih =>
    rw [List.range_succ_eq_map, List.map_cons, List.map_cons, List.map_map, List.map_map,
      lex_cons_cons, ih (f ∘ Nat.succ) (g ∘ Nat.succ)]
    constructor
    · rintro (h | ⟨h0, j, hj, heq, hlt⟩)
      · exact ⟨0, Nat.succ_pos n, fun i hi => absurd hi (Nat.not_lt_zero i), h⟩
      · refine ⟨j + 1, by omega, fun i hi => ?_, hlt⟩
        cases i with
        | zero => exact h0
        | succ i => exact heq i (by omega)
    · rintro ⟨j, hj, heq, hlt⟩
      cases j with
      | zero => exact Or.inl hlt
      | succ j =>
        exact Or.inr ⟨heq 0 (Nat.succ_pos j), j, by omega, fun i hi => heq (i + 1) (by omega),
          hlt⟩

/-! ## Positions in a three-dimensional block -/

theorem enc3_dec3 (B C n : Nat) :
    enc3 B C (dec3 B C n).1 (dec3 B C n).2.1 (dec3 B C n).2.2 = n := by
  simp only [enc3, dec3]
  have h1 := Nat.div_add_mod n (B * C)
  have h2 := Nat.div_add_mod (n % (B * C)) C
  rw [Nat.mul_comm (n / (B * C)) (B * C), Nat.mul_comm (n % (B * C) / C) C, Nat.add_assoc, h2, h1]

theorem inner_lt (B C j k : Nat) (hj : j < B) (hk : k < C) : j * C + k < B * C :=
  calc j * C + k < j * C + C := Nat.add_lt_add_left hk _
    _ = (j + 1) * C := by ring
    _ ≤ B * C := Nat.mul_le_mul_right _ hj

theorem dec3_enc3 (B C i j k : Nat) (hj : j < B) (hk : k < C) :
    dec3 B C (enc3 B C i j k) = (i, j, k) := by
  have hm := inner_lt B C j k hj hk
  have hC : 0 < C := Nat.lt_of_le_of_lt (Nat.zero_le _) hk
  have hBC : 0 < B * C := Nat.lt_of_le_of_lt (Nat.zero_le _) hm
  have e : i * (B * C) + j * C + k = (j * C + k) + i * (B * C) := by ring
  have hdiv : (i * (B * C) + j * C + k) / (B * C) = i := by
    rw [e, Nat.add_mul_div_right _ _ hBC, Nat.div_eq_of_lt hm, Nat.zero_add]
  have hmod : (i * (B * C) + j * C + k) % (B * C) = j * C + k := by
    rw [e, Nat.add_mul_mod_self_right, Nat.mod_eq_of_lt hm]
  have hj2 : (j * C + k) / C = j := by
    rw [Nat.add_comm, Nat.add_mul_div_right _ _ hC, Nat.div_eq_of_lt hk, Nat.zero_add]
  have hk2 : (j * C + k) % C = k := by
    rw [Nat.add_comm, Nat.add_mul_mod_self_right, Nat.mod_eq_of_lt hk]
  simp only [enc3, dec3, hdiv, hmod, hj2, hk2]

theorem enc3_lt (A B C i j k : Nat) (hi : i < A) (hj : j < B) (hk : k < C) :
    enc3 B C i j k < A * (B * C) := by
  have hm := inner_lt B C j k hj hk
  have h := inner_lt A (B * C) i (j * C + k) hi hm
  simp only [enc3]
  omega

theorem dec3_lt (A B C n : Nat) (hn : n < A * (B * C)) :
    (dec3 B C n).1 < A ∧ (dec3 B C n).2.1 < B ∧ (dec3 B C n).2.2 < C := by
  have hBC : 0 < B * C := by
    rcases Nat.eq_zero_or_pos (B * C) with h | h
    · rw [h, Nat.mul_zero] at hn; exact absurd hn (Nat.not_lt_zero n)
    · exact h
  have hC : 0 < C := Nat.pos_of_mul_pos_left hBC
  simp only [dec3]
  refine ⟨?_, ?_, Nat.mod_lt _ hC⟩
  · have h : n < B * C * A := by
      rw [Nat.mul_comm (B * C) A]
      exact hn
    exact Nat.div_lt_of_lt_mul h
  · have h : n % (B * C) < C * B := by
      rw [Nat.mul_comm C B]
      exact Nat.mod_lt _ hBC
    exact Nat.div_lt_of_lt_mul h

theorem getD_map_range {α : Type} (F : Nat → α) (n j : Nat) (d : α) (h : j < n) :
    ((List.range n).map F).getD j d = F j := by
  simp [List.getD, h]

theorem map_getD_range {α : Type} (v : List α) (d : α) :
    (List.range v.length).map (fun n => v.getD n d) = v := by
  apply List.ext_getElem
  · simp
  · intro n h1 h2
    simp [List.getD, h2]

/-! ## Members of `Tensor<float>` -/

theorem empty_eq_false {α : Type} (t : Tensor α) (h : 0 < t.mem.length) : t.empty = false := by
  unfold Tensor.empty
  cases hm : t.mem with
  | nil => rw [hm] at h; exact absurd h (Nat.lt_irrefl 0)
  | cons x xs => rfl

theorem Valid_size_pos {α : Type} (t : Tensor α) (h : t.Valid) : 0 < t.size :=
  Nat.mul_pos (Nat.mul_pos h.1 h.2.1) h.2.2.1

theorem Valid_not_empty {α : Type} (t : Tensor α) (h : t.Valid) : t.empty = false :=
  empty_eq_false t (by rw [h.2.2.2]; exact Valid_size_pos t h)

theorem Valid_Construct {α : Type} [Zero α] (channels rows cols : Nat) (hc : 0 < channels)
    (hr : 0 < rows) (hk : 0 < cols) : (Tensor.Construct channels rows cols : Tensor α).Valid :=
  ⟨hc, hr, hk, by simp [Tensor.Construct, Tensor.size, Tensor.channels, Tensor.rows,
    Tensor.cols]⟩

/-- Reading a cell of a valid tensor. -/
theorem at_eq {α : Type} [Zero α] (t : Tensor α) (c r k : Nat) (hl : t.mem.length = t.size)
    (hc : c < t.channels) (hr : r < t.rows) (hk : k < t.cols) :
    t.at_ c r k = Outcome.ok (t.mem.getD (nativeIndex t.rows t.cols c r k) 0) := by
  have hlt : nativeIndex t.rows t.cols c r k < t.mem.length := by
    have h := enc3_lt t.channels t.cols t.rows c k r hc hk hr
    rw [hl]
    unfold nativeIndex Tensor.size
    rw [Nat.mul_assoc, Nat.mul_comm t.rows t.cols]
    exact h
  unfold Tensor.at_
  rw [if_pos ⟨hc, hr, hk⟩, List.getElem?_eq_getElem hlt, List.getD_eq_getElem _ _ hlt]

/-- The memory written by `Fill(values, true)`. -/
theorem Fill_values_true_eq {α : Type} [Zero α] (R K C : Nat) (mem v : List α)
    (hne : mem.isEmpty = false) (hv : v.length = C * R * K) :
    (Tensor.mk R K C mem).Fill_values v true
      = Outcome.ok (Tensor.mk R K C ((List.range (C * R * K)).map (fun n =>
          v.getD (rowMajorIndex R K (dec3 K R n).1 (dec3 K R n).2.2 (dec3 K R n).2.1) 0))) := by
  have hv1 : ¬ v.length ≠ C * R * K := fun h => h hv
  simp only [Tensor.Fill_values, Tensor.empty, Tensor.size, Tensor.channels, Tensor.rows,
    Tensor.cols, hne, hv1, if_false, Bool.false_eq_true, if_true]

theorem Fill_values_false_eq {α : Type} [Zero α] (R K C : Nat) (mem v : List α)
    (hne : mem.isEmpty = false) (hv : v.length = C * R * K) :
    (Tensor.mk R K C mem).Fill_values v false = Outcome.ok (Tensor.mk R K C v) := by
  have hv1 : ¬ v.length ≠ C * R * K := fun h => h hv
  simp only [Tensor.Fill_values, Tensor.empty, Tensor.size, Tensor.channels, Tensor.rows,
    Tensor.cols, hne, hv1, if_false, Bool.false_eq_true]

theorem values_true_eq {α : Type} [Zero α] (R K C : Nat) (mem : List α)
    (hne : mem.isEmpty = false) :
    (Tensor.mk R K C mem).values true
      = Outcome.ok ((List.range (C * R * K)).map (fun n =>
          mem.getD (nativeIndex R K (dec3 R K n).1 (dec3 R K n).2.1 (dec3 R K n).2.2) 0)) := by
  simp only [Tensor.values, Tensor.empty, Tensor.size, Tensor.channels, Tensor.rows,
    Tensor.cols, hne, if_false, Bool.false_eq_true, if_true]

theorem values_false_eq {α : Type} [Zero α] (R K C : Nat) (mem : List α)
    (hne : mem.isEmpty = false) :
    (Tensor.mk R K C mem).values false = Outcome.ok mem := by
  simp only [Tensor.values, Tensor.empty, hne, if_false, Bool.false_eq_true]

theorem isEmpty_eq_false {α : Type} (l : List α) (h : 0 < l.length) : l.isEmpty = false := by
  cases l with
  | nil => exact absurd h (Nat.lt_irrefl 0)
  | cons x xs => rfl

/-- Reading back in row-major order what `Fill(values, true)` stored. -/
theorem row_major_read_back {α : Type} [Zero α] (R K C : Nat) (v : List α)
    (hv : v.length = C * R * K) :
    (List.range (C * R * K)).map (fun n =>
        ((List.range (C * R * K)).map (fun n =>
          v.getD (rowMajorIndex R K (dec3 K R n).1 (dec3 K R n).2.2 (dec3 K R n).2.1) 0)).getD
          (nativeIndex R K (dec3 R K n).1 (dec3 R K n).2.1 (dec3 R K n).2.2) 0)
      = v := by
  conv => rhs; rw [← map_getD_range v 0]
  rw [hv]
  apply List.map_congr_left
  intro n hn
  rw [List.mem_range] at hn
  have hn1 : n < C * (R * K) := by rw [← Nat.mul_assoc]; exact hn
  obtain ⟨h1, h2, h3⟩ := dec3_lt C R K n hn1
  have hj : nativeIndex R K (dec3 R K n).1 (dec3 R K n).2.1 (dec3 R K n).2.2 < C * R * K := by
    have h := enc3_lt C K R _ _ _ h1 h3 h2
    unfold nativeIndex
    rw [Nat.mul_assoc, Nat.mul_comm R K]
    exact h
  rw [getD_map_range _ _ _ _ hj]
  unfold nativeIndex
  rw [dec3_enc3 K R _ _ _ h3 h2]
  unfold rowMajorIndex
  rw [enc3_dec3]

/-- What `Fill(values, row_major)` stores, and that `values(row_major)` reads
it back. -/
theorem Fill_values_round_trip {α : Type} [Zero α] (t : Tensor α) (v : List α) (rm : Bool)
    (hne : t.empty = false) (hpos : 0 < t.size) (hv : v.length = t.size) :
    ∃ t1, t.Fill_values v rm = Outcome.ok t1 ∧ t1.values rm = Outcome.ok v
      ∧ t1.n_rows = t.n_rows ∧ t1.n_cols = t.n_cols ∧ t1.n_slices = t.n_slices
      ∧ t1.mem.length = t.size := by
  obtain ⟨R, K, C, mem⟩ := t
  simp only [Tensor.empty, Tensor.size, Tensor.channels, Tensor.rows, Tensor.cols] at hne hpos hv
  cases rm with
  | false =>
    refine ⟨_, Fill_values_false_eq R K C mem v hne hv, ?_, rfl, rfl, rfl, hv⟩
    exact values_false_eq R K C v (isEmpty_eq_false v (by rw [hv]; exact hpos))
  | true =>
    refine ⟨_, Fill_values_true_eq R K C mem v hne hv, ?_, rfl, rfl, rfl, ?_⟩
    · rw [values_true_eq R K C _ (isEmpty_eq_false _ (by rw [List.length_map, List.length_range]; exact hpos)),
        row_major_read_back R K C v hv]
    · simp [Tensor.size, Tensor.channels, Tensor.rows, Tensor.cols]

theorem Fill_values_inv3 {α : Type} [Zero α] (t t1 : Tensor α) (v : List α) (rm : Bool)
    (hf : t.Fill_values v rm = Outcome.ok t1) : v.length = t.size := by
  by_contra hne
  unfold Tensor.Fill_values at hf
  by_cases he : t.empty = true
  · rw [if_pos he] at hf
    exact Outcome.noConfusion hf
  · rw [if_neg he, if_pos hne] at hf
    exact Outcome.noConfusion hf

/-- `Reshape` on a non-empty tensor whose memory matches its shape. -/
theorem Reshape_eq {α : Type} [Zero α] (t1 : Tensor α) (v : List α) (rm : Bool)
    (c2 r2 k2 : Nat) (hne : t1.empty = false) (hpos : 0 < t1.size)
    (hvals : t1.values rm = Outcome.ok v) (hv : v.length = t1.size) :
    (c2 * r2 * k2 ≠ t1.size → t1.Reshape [c2, r2, k2] rm = Outcome.fatal)
    ∧ (c2 * r2 * k2 = t1.size →
        ∃ t2, t1.Reshape [c2, r2, k2] rm = Outcome.ok t2 ∧ t2.shapes = [c2, r2, k2]
          ∧ t2.values rm = Outcome.ok v) := by
  constructor
  · intro hprod
    unfold Tensor.Reshape
    rw [hne]
    simp only [Bool.false_eq_true, if_false, hprod]
  · intro hprod
    have hne2 : (Tensor.mk r2 k2 c2 t1.mem).empty = false := hne
    have hsz2 : (Tensor.mk r2 k2 c2 t1.mem).size = c2 * r2 * k2 := rfl
    obtain ⟨t2, hf2, hv2, hr, hk, hc, _⟩ :=
      Fill_values_round_trip (Tensor.mk r2 k2 c2 t1.mem) v rm hne2
        (by rw [hsz2, hprod]; exact hpos) (by rw [hsz2, hprod]; exact hv)
    refine ⟨t2, ?_, ?_, hv2⟩
    · unfold Tensor.Reshape
      rw [hne]
      simp only [Bool.false_eq_true, if_false, hprod, if_true, hvals]
      exact hf2
    · simp only [Tensor.shapes, Tensor.channels, Tensor.rows, Tensor.cols, hr, hk, hc]

/-- The tensor built by `Padding` and the contents of its cells. -/
theorem Padding_at {α : Type} [Zero α] (t : Tensor α) (top bottom left right : Nat) (pv : α)
    (hne : t.empty = false) :
    ∃ u, t.Padding [top, bottom, left, right] pv = Outcome.ok u
      ∧ u.shapes = [t.channels, t.rows + top + bottom, t.cols + left + right]
      ∧ ∀ c r k, c < t.channels → r < t.rows + top + bottom → k < t.cols + left + right →
          u.at_ c r k =
            if top ≤ r ∧ r < top + t.rows ∧ left ≤ k ∧ k < left + t.cols then
              Outcome.ok (t.mem.getD (nativeIndex t.rows t.cols c (r - top) (k - left)) 0)
            else Outcome.ok pv := by
  obtain ⟨R, K, C, mem⟩ := t
  simp only [Tensor.empty] at hne
  simp only [Tensor.Padding, Tensor.empty, hne, Tensor.channels, Tensor.rows, Tensor.cols,
    Bool.false_eq_true, if_false]
  refine ⟨_, rfl, rfl, fun c r k hc hr hk => ?_⟩
  rw [at_eq (Tensor.mk (R + top + bottom) (K + left + right) C _) c r k
    (by simp [Tensor.size, Tensor.channels, Tensor.rows, Tensor.cols]) hc hr hk]
  simp only [Tensor.rows, Tensor.cols]
  have hj : nativeIndex (R + top + bottom) (K + left + right) c r k
      < C * (R + top + bottom) * (K + left + right) := by
    have h := enc3_lt C (K + left + right) (R + top + bottom) c k r hc hk hr
    unfold nativeIndex
    rw [Nat.mul_assoc, Nat.mul_comm (R + top + bottom) (K + left + right)]
    exact h
  rw [getD_map_range _ _ _ _ hj]
  unfold nativeIndex
  rw [dec3_enc3 (K + left + right) (R + top + bottom) c k r hk hr]
  simp only []
  split <;> rfl

/-! ## Claims -/

/-- C1 (as amended): on a tensor constructed with positive dimensions, a
partial index `idx` shorter than the rank with `idx[i] < dims[i]` makes
`raw_ptr(idx)` return the buffer base `raw_ptr()` advanced by the accumulation
`total = total * dims[i] + index[i]` reduced modulo `2^32`; that accumulation
is the sum over `i < k` of `idx[i]` times the product of the later dimensions,
and the pointer is advanced by exactly that sum when the product of the
dimensions fits in 32 bits. -/
theorem raw_ptr_offsets_row_major {α : Type} (HeadShape : Nat) (TailShapes : List Nat)
    (init : Nat → α) (heap : Heap α) (idx : List Nat)
    (hpos : ∀ d ∈ HeadShape :: TailShapes, 0 < d)
    (hlen : idx.length < (HeadShape :: TailShapes).length)
    (hidx : ∀ i, i < idx.length → idx.getD i 0 < (HeadShape :: TailShapes).getD i 0) :
    (TensorNd.Construct HeadShape TailShapes init heap).1.raw_ptr = Outcome.ok ⟨heap.length, 0⟩
    ∧ (TensorNd.Construct HeadShape TailShapes init heap).1.raw_ptr_offsets idx
        = Outcome.ok ⟨heap.length, hornerOffset (HeadShape :: TailShapes) idx % U32⟩
    ∧ hornerOffset (HeadShape :: TailShapes) idx = rowMajorOffset (HeadShape :: TailShapes) idx
    ∧ ((HeadShape :: TailShapes).prod < U32 →
        (TensorNd.Construct HeadShape TailShapes init heap).1.raw_ptr_offsets idx
          = Outcome.ok ⟨heap.length, rowMajorOffset (HeadShape :: TailShapes) idx⟩) := by
  have hchk := checks_of_valid (HeadShape :: TailShapes) idx hpos hidx
  have heq := hornerOffset_eq_rowMajorOffset (HeadShape :: TailShapes) idx (Nat.le_of_lt hlen)
  have hmain : (TensorNd.Construct HeadShape TailShapes init heap).1.raw_ptr_offsets idx
        = Outcome.ok ⟨heap.length, hornerOffset (HeadShape :: TailShapes) idx % U32⟩ := by
    rw [Construct_fst]
    exact raw_ptr_offsets_ok _ heap.length idx rfl hpos hlen hidx
  refine ⟨by rw [Construct_fst]; rfl, hmain, heq, ?_⟩
  intro hfit
  have hlt := hornerOffset_lt_prod (HeadShape :: TailShapes) idx hchk
  rw [hmain, Nat.mod_eq_of_lt (Nat.lt_trans hlt hfit), heq]

/-- C1, the scenario of the specification: shape (2,3,4) and `idx = {1,2}`
give the base advanced by `1*3*4 + 2*4 + 0 = 20`. -/
theorem raw_ptr_offsets_row_major_witness :
    (∀ d ∈ [2, 3, 4], 0 < d) ∧ [1, 2].length < [2, 3, 4].length
    ∧ (∀ i, i < [1, 2].length → [1, 2].getD i 0 < [2, 3, 4].getD i 0)
    ∧ [2, 3, 4].prod < U32
    ∧ rowMajorOffset [2, 3, 4] [1, 2] = 1 * 3 * 4 + 2 * 4 + 0
    ∧ (TensorNd.Construct 2 [3, 4] (fun _ => (0 : Nat)) []).1.raw_ptr_offsets [1, 2]
        = Outcome.ok ⟨0, rowMajorOffset [2, 3, 4] [1, 2]⟩ :=
  ⟨by decide, by decide, by decide, by decide, by decide,
    (raw_ptr_offsets_row_major 2 [3, 4] (fun _ => (0 : Nat)) [] [1, 2]
      (by decide) (by decide) (by decide)).2.2.2 (by decide)⟩

/-- C1 as stated fails: on shape (65536,65536,2), whose dimensions are
positive 32-bit values, the valid index `{65535,65535}` has row-major sum
`8589934590`, and `raw_ptr` advances the base by `4294967294`. -/
theorem raw_ptr_offsets_wraps :
    (∀ d ∈ [65536, 65536, 2], 0 < d ∧ d < U32)
    ∧ [65535, 65535].length < [65536, 65536, 2].length
    ∧ (∀ i, i < [65535, 65535].length →
        [65535, 65535].getD i 0 < [65536, 65536, 2].getD i 0)
    ∧ rowMajorOffset [65536, 65536, 2] [65535, 65535] = 8589934590
    ∧ hornerOffset [65536, 65536, 2] [65535, 65535] = 8589934590
    ∧ (TensorNd.Construct 65536 [65536, 2] (fun _ => (0 : Nat)) []).1.raw_ptr_offsets
        [65535, 65535] = Outcome.ok ⟨0, 4294967294⟩
    ∧ (TensorNd.Construct 65536 [65536, 2] (fun _ => (0 : Nat)) []).1.raw_ptr_offsets
        [65535, 65535]
        ≠ Outcome.ok ⟨0, rowMajorOffset [65536, 65536, 2] [65535, 65535]⟩ := by
  refine ⟨by decide, by decide, by decide, by decide, by decide, by decide, by decide⟩

/-- C2: on a tensor constructed with positive dimensions, `raw_ptr(idx)` is
fatal exactly when the length of `idx` is not below the rank or some supplied
`idx[i]` is not below `dims[i]`; in every other case it returns a pointer. -/
theorem raw_ptr_offsets_fatal_iff {α : Type} (HeadShape : Nat) (TailShapes : List Nat)
    (init : Nat → α) (heap : Heap α) (idx : List Nat)
    (hpos : ∀ d ∈ HeadShape :: TailShapes, 0 < d) :
    ((TensorNd.Construct HeadShape TailShapes init heap).1.raw_ptr_offsets idx = Outcome.fatal
      ↔ (¬ idx.length < (HeadShape :: TailShapes).length
          ∨ ∃ i, i < idx.length ∧ ¬ idx.getD i 0 < (HeadShape :: TailShapes).getD i 0))
    ∧ (¬ (¬ idx.length < (HeadShape :: TailShapes).length
          ∨ ∃ i, i < idx.length ∧ ¬ idx.getD i 0 < (HeadShape :: TailShapes).getD i 0)
        → ∃ p, (TensorNd.Construct HeadShape TailShapes init heap).1.raw_ptr_offsets idx
            = Outcome.ok p) := by
  have hok : ¬ (¬ idx.length < (HeadShape :: TailShapes).length
          ∨ ∃ i, i < idx.length ∧ ¬ idx.getD i 0 < (HeadShape :: TailShapes).getD i 0)
        → ∃ p, (TensorNd.Construct HeadShape TailShapes init heap).1.raw_ptr_offsets idx
            = Outcome.ok p := by
    intro hc
    push_neg at hc
    rw [Construct_fst]
    exact ⟨_, raw_ptr_offsets_ok _ heap.length idx rfl hpos hc.1 (fun i hi => hc.2 i hi)⟩
  refine ⟨⟨?_, ?_⟩, hok⟩
  · intro hf
    by_contra hc
    obtain ⟨p, hp⟩ := hok hc
    rw [hp] at hf
    exact Outcome.noConfusion hf
  · rintro (hlen | ⟨i, hi, hbad⟩)
    · rw [Construct_fst]
      exact raw_ptr_offsets_too_long _ idx hlen
    · rw [Construct_fst]
      exact raw_ptr_offsets_bad _ idx i hi hbad

/-- C2 on shape (2,3,4): `{1,3}` is fatal because `3` is not below `3`, and
`{1,2,3}` is fatal because its length is not below the rank. -/
theorem raw_ptr_offsets_fatal_iff_witness :
    (∀ d ∈ [2, 3, 4], 0 < d)
    ∧ (TensorNd.Construct 2 [3, 4] (fun _ => (0 : Nat)) []).1.raw_ptr_offsets [1, 3]
        = Outcome.fatal
    ∧ (TensorNd.Construct 2 [3, 4] (fun _ => (0 : Nat)) []).1.raw_ptr_offsets [1, 2, 3]
        = Outcome.fatal :=
  ⟨by decide,
    (raw_ptr_offsets_fatal_iff 2 [3, 4] (fun _ => (0 : Nat)) [] [1, 3] (by decide)).1.mpr
      (Or.inr ⟨1, by decide, by decide⟩),
    (raw_ptr_offsets_fatal_iff 2 [3, 4] (fun _ => (0 : Nat)) [] [1, 2, 3] (by decide)).1.mpr
      (Or.inl (by decide))⟩

/-- C3 (as amended): `size()` of a constructed tensor returns the product of
the dimensions reduced modulo `2^32`, which is the product itself when the
product fits in 32 bits. -/
theorem size_eq_product_mod {α : Type} (HeadShape : Nat) (TailShapes : List Nat)
    (init : Nat → α) (heap : Heap α) :
    (TensorNd.Construct HeadShape TailShapes init heap).1.size
        = Outcome.ok ((HeadShape :: TailShapes).prod % U32)
    ∧ ((HeadShape :: TailShapes).prod < U32 →
        (TensorNd.Construct HeadShape TailShapes init heap).1.size
          = Outcome.ok (HeadShape :: TailShapes).prod) := by
  have h : (TensorNd.Construct HeadShape TailShapes init heap).1.size
        = Outcome.ok ((HeadShape :: TailShapes).prod % U32) := by
    rw [Construct_fst]
    exact size_eq _ (List.cons_ne_nil _ _)
  refine ⟨h, fun hfit => ?_⟩
  rw [h, Nat.mod_eq_of_lt hfit]

/-- C3 on shape (2,3,4): `size()` is 24. -/
theorem size_eq_product_mod_witness :
    [2, 3, 4].prod < U32
    ∧ (TensorNd.Construct 2 [3, 4] (fun _ => (0 : Nat)) []).1.size = Outcome.ok 24 :=
  ⟨by decide, (size_eq_product_mod 2 [3, 4] (fun _ => (0 : Nat)) []).2 (by decide)⟩

/-- C3 as stated fails: shape (65536,65536) has positive 32-bit dimensions
and product `4294967296`, and `size()` returns `0`. -/
theorem size_wraps :
    (∀ d ∈ [65536, 65536], 0 < d ∧ d < U32)
    ∧ [65536, 65536].prod = 4294967296
    ∧ (TensorNd.Construct 65536 [65536] (fun _ => (0 : Nat)) []).1.size = Outcome.ok 0
    ∧ (TensorNd.Construct 65536 [65536] (fun _ => (0 : Nat)) []).1.size
        ≠ Outcome.ok [65536, 65536].prod := by
  refine ⟨by decide, by decide, by decide, by decide⟩

/-- C4: in every reachable state `Fill(v)` succeeds, and afterwards the element
read through `raw_ptr(i)` is `v` for every `i` below `size()`. -/
theorem Fill_broadcast {α : Type} (HeadShape : Nat) (TailShapes : List Nat) (t : TensorNd)
    (heap : Heap α) (v : α) (hr : Reachable HeadShape TailShapes t heap) :
    ∃ heap1 n, t.Fill v heap = Outcome.ok heap1 ∧ t.size = Outcome.ok n ∧
      ∀ i, i < n → ∃ p, t.raw_ptr_offset i = Outcome.ok p ∧ load heap1 p = some v := by
  obtain ⟨heap1, hf, hs, hread⟩ :=
    Fill_reads (HeadShape :: TailShapes) t heap v (reachable_live HeadShape TailShapes t heap hr)
  exact ⟨heap1, _, hf, hs, hread⟩

/-- C4 on a freshly constructed tensor of shape (2,3) filled with `7`. -/
theorem Fill_broadcast_witness :
    Reachable 2 [3] (TensorNd.Construct 2 [3] (fun i => i) []).1
      (TensorNd.Construct 2 [3] (fun i => i) []).2
    ∧ ∃ heap1 n, (TensorNd.Construct 2 [3] (fun i => i) []).1.Fill 7
          (TensorNd.Construct 2 [3] (fun i => i) []).2 = Outcome.ok heap1
        ∧ (TensorNd.Construct 2 [3] (fun i => i) []).1.size = Outcome.ok n
        ∧ ∀ i, i < n → ∃ p, (TensorNd.Construct 2 [3] (fun i => i) []).1.raw_ptr_offset i
            = Outcome.ok p ∧ load heap1 p = some 7 :=
  ⟨Reachable.construct (fun i => i) [] (by decide),
    Fill_broadcast 2 [3] _ _ 7 (Reachable.construct (fun i => i) [] (by decide))⟩

/-- C5 (as amended): in every reachable state, when the length of `values`
equals `size()`, `Fill(values)` succeeds and afterwards the element at linear
offset `i` is `values[i]` for every `i` below `size()`; and when the product of
the dimensions fits in 32 bits, every partial index accepted by `raw_ptr(idx)`
addresses the element `values[row-major offset of idx]`. -/
theorem Fill_values_elements {α : Type} (HeadShape : Nat) (TailShapes : List Nat)
    (t : TensorNd) (heap : Heap α) (values : List α)
    (hr : Reachable HeadShape TailShapes t heap)
    (hlen : t.size = Outcome.ok values.length) :
    ∃ heap1, t.Fill_values values heap = Outcome.ok heap1
      ∧ (∀ i, i < values.length →
          ∃ p v, t.raw_ptr_offset i = Outcome.ok p ∧ load heap1 p = some v
            ∧ values[i]? = some v)
      ∧ ((HeadShape :: TailShapes).prod < U32 →
          ∀ idx p, t.raw_ptr_offsets idx = Outcome.ok p →
            ∃ v, p.off = rowMajorOffset (HeadShape :: TailShapes) idx
              ∧ load heap1 p = some v
              ∧ values[rowMajorOffset (HeadShape :: TailShapes) idx]? = some v) := by
  have hl := reachable_live HeadShape TailShapes t heap hr
  obtain ⟨hv, a, hd, hf, hread⟩ :=
    Fill_values_reads (HeadShape :: TailShapes) t heap values hl hlen
  refine ⟨_, hf, fun i hi => ?_, fun hfit idx p hp => ?_⟩
  · refine ⟨⟨a, i⟩, values.get ⟨i, hi⟩, by simp [TensorNd.raw_ptr_offset, hd], ?_, ?_⟩
    · rw [hread i]; exact List.getElem?_eq_getElem hi
    · exact List.getElem?_eq_getElem hi
  · have hs : t.raw_shapes_ = HeadShape :: TailShapes := hl.1
    rw [← hs] at hfit hv
    obtain ⟨hpe, hlt⟩ := raw_ptr_offsets_in_range t a idx p hd hp hfit
    rw [Nat.mod_eq_of_lt hfit] at hv
    rw [← hv] at hlt
    rw [← hs]
    refine ⟨values.get ⟨_, hlt⟩, by rw [hpe], ?_, List.getElem?_eq_getElem hlt⟩
    rw [hpe, hread]
    exact List.getElem?_eq_getElem hlt

/-- C5 on shape (2,3) filled with `10..15`: the partial index `{1}` addresses
the element `13` at row-major offset `3`. -/
theorem Fill_values_elements_witness :
    Reachable 2 [3] (TensorNd.Construct 2 [3] (fun i => i) []).1
      (TensorNd.Construct 2 [3] (fun i => i) []).2
    ∧ (TensorNd.Construct 2 [3] (fun i => i) []).1.size
        = Outcome.ok [10, 11, 12, 13, 14, 15].length
    ∧ [2, 3].prod < U32
    ∧ (TensorNd.Construct 2 [3] (fun i => i) []).1.raw_ptr_offsets [1] = Outcome.ok ⟨0, 3⟩
    ∧ ∃ heap1, (TensorNd.Construct 2 [3] (fun i => i) []).1.Fill_values
          [10, 11, 12, 13, 14, 15] (TensorNd.Construct 2 [3] (fun i => i) []).2
          = Outcome.ok heap1
        ∧ ∃ v, load heap1 ⟨0, 3⟩ = some v
            ∧ [10, 11, 12, 13, 14, 15][rowMajorOffset [2, 3] [1]]? = some v := by
  have hr : Reachable 2 [3] (TensorNd.Construct 2 [3] (fun i => i) []).1
      (TensorNd.Construct 2 [3] (fun i => i) []).2 :=
    Reachable.construct (fun i => i) [] (by decide)
  obtain ⟨heap1, hf, _, hidx⟩ :=
    Fill_values_elements 2 [3] _ _ [10, 11, 12, 13, 14, 15] hr (by decide)
  obtain ⟨v, _, hload, hval⟩ := hidx (by decide) [1] ⟨0, 3⟩ (by decide)
  exact ⟨hr, by decide, by decide, by decide, heap1, hf, v, hload, hval⟩

/-- C5 as stated fails: on shape (65536,65536) `size()` is `0`, the empty
sequence is accepted by `Fill(values)`, the partial index `{0}` is accepted by
`raw_ptr`, and the pointer returned addresses no element. -/
theorem Fill_values_wrapped_index :
    (TensorNd.Construct 65536 [65536] (fun i => i) []).1.size
        = Outcome.ok ([] : List Nat).length
    ∧ (TensorNd.Construct 65536 [65536] (fun i => i) []).1.Fill_values []
        (TensorNd.Construct 65536 [65536] (fun i => i) []).2 = Outcome.ok [[]]
    ∧ (TensorNd.Construct 65536 [65536] (fun i => i) []).1.raw_ptr_offsets [0]
        = Outcome.ok ⟨0, 0⟩
    ∧ load ([[]] : Heap Nat) ⟨0, 0⟩ = none
    ∧ ([] : List Nat)[rowMajorOffset [65536, 65536] [0]]? = none := by
  refine ⟨by decide, by decide, by decide, by decide, by decide⟩

/-- C6 at the failing input: on shape (1), where `size()` is `1`, a sequence
of `2^32 + 1` values has a length different from `size()`, and `Fill(values)`
is not fatal: the length check passes on the truncated length and the copy
runs past the end of the one-element buffer. -/
theorem Fill_values_truncated_length :
    (TensorNd.Construct 1 [] (fun i => i) []).1.size = Outcome.ok 1
    ∧ (List.replicate 4294967297 7).length ≠ 1
    ∧ (TensorNd.Construct 1 [] (fun i => i) []).1.Fill_values (List.replicate 4294967297 7)
        (TensorNd.Construct 1 [] (fun i => i) []).2 = Outcome.overrun
    ∧ (TensorNd.Construct 1 [] (fun i => i) []).1.Fill_values (List.replicate 4294967297 7)
        (TensorNd.Construct 1 [] (fun i => i) []).2 ≠ Outcome.fatal := by
  have hover : (TensorNd.Construct 1 [] (fun i => i) []).1.Fill_values
      (List.replicate 4294967297 7) (TensorNd.Construct 1 [] (fun i => i) []).2
      = Outcome.overrun := by
    rw [Construct_fst, Construct_snd]
    refine Fill_values_overrun _ _ _ 0 [0] (by decide) rfl (by decide) (by decide) ?_ ?_
    · rw [List.length_replicate]; decide
    · rw [List.length_replicate]; decide
  refine ⟨by decide, ?_, hover, ?_⟩
  · rw [List.length_replicate]; decide
  · rw [hover]; exact fun h => Outcome.noConfusion h

/-- C7: on a constructed tensor of rank `n`, when `length(idx) + 1 < n` the
calls `raw_ptr(idx)` and `raw_ptr(idx ++ [0])` have the same outcome; and when
every dimension is positive `raw_ptr({})` returns the same address as
`raw_ptr()` and `raw_ptr(0)`. -/
theorem raw_ptr_offsets_trailing_zero {α : Type} (HeadShape : Nat) (TailShapes : List Nat)
    (init : Nat → α) (heap : Heap α) (idx : List Nat) :
    (idx.length + 1 < (HeadShape :: TailShapes).length →
      (TensorNd.Construct HeadShape TailShapes init heap).1.raw_ptr_offsets idx
        = (TensorNd.Construct HeadShape TailShapes init heap).1.raw_ptr_offsets (idx ++ [0]))
    ∧ ((∀ d ∈ HeadShape :: TailShapes, 0 < d) →
      (TensorNd.Construct HeadShape TailShapes init heap).1.raw_ptr_offsets []
        = (TensorNd.Construct HeadShape TailShapes init heap).1.raw_ptr
      ∧ (TensorNd.Construct HeadShape TailShapes init heap).1.raw_ptr_offsets []
        = (TensorNd.Construct HeadShape TailShapes init heap).1.raw_ptr_offset 0
      ∧ (TensorNd.Construct HeadShape TailShapes init heap).1.raw_ptr_offsets []
        = Outcome.ok ⟨heap.length, 0⟩) := by
  constructor
  · intro hlen
    have h1 : idx.length
        < (TensorNd.Construct HeadShape TailShapes init heap).1.raw_shapes_.length := by
      rw [Construct_fst]
      show idx.length < (HeadShape :: TailShapes).length
      omega
    have h2 : (idx ++ [0]).length
        < (TensorNd.Construct HeadShape TailShapes init heap).1.raw_shapes_.length := by
      rw [Construct_fst, List.length_append]
      exact hlen
    unfold TensorNd.raw_ptr_offsets
    simp only [h1, h2, if_true, padOffsets_snoc_zero]
  · intro hpos
    have hz : hornerOffset (HeadShape :: TailShapes) [] = 0 := by
      rw [hornerOffset_eq_rowMajorOffset _ _ (Nat.zero_le _)]
      rfl
    have hmain : (TensorNd.Construct HeadShape TailShapes init heap).1.raw_ptr_offsets []
        = Outcome.ok ⟨heap.length, 0⟩ := by
      have h := raw_ptr_offsets_ok
        { raw_shapes_ := HeadShape :: TailShapes, data_ := some heap.length } heap.length []
        rfl hpos (Nat.succ_pos _) (fun i hi => absurd hi (Nat.not_lt_zero i))
      rw [Construct_fst, h]
      show Outcome.ok (Ptr.mk heap.length (hornerOffset (HeadShape :: TailShapes) [] % U32))
        = Outcome.ok (Ptr.mk heap.length 0)
      rw [hz]
      rfl
    refine ⟨?_, ?_, hmain⟩
    · rw [hmain, Construct_fst]; rfl
    · rw [hmain, Construct_fst]; rfl

/-- C7 on shape (2,3,4): `{1}` and `{1,0}` give the same pointer, and `{}`
gives the address of `raw_ptr()`. -/
theorem raw_ptr_offsets_trailing_zero_witness :
    [1].length + 1 < [2, 3, 4].length
    ∧ (∀ d ∈ [2, 3, 4], 0 < d)
    ∧ (TensorNd.Construct 2 [3, 4] (fun _ => (0 : Nat)) []).1.raw_ptr_offsets [1]
        = (TensorNd.Construct 2 [3, 4] (fun _ => (0 : Nat)) []).1.raw_ptr_offsets ([1] ++ [0])
    ∧ (TensorNd.Construct 2 [3, 4] (fun _ => (0 : Nat)) []).1.raw_ptr_offsets []
        = (TensorNd.Construct 2 [3, 4] (fun _ => (0 : Nat)) []).1.raw_ptr :=
  ⟨by decide, by decide,
    (raw_ptr_offsets_trailing_zero 2 [3, 4] (fun _ => (0 : Nat)) [] [1]).1 (by decide),
    ((raw_ptr_offsets_trailing_zero 2 [3, 4] (fun _ => (0 : Nat)) [] [1]).2 (by decide)).1⟩

/-- C8 (as amended): `raw_ptr(offset)` is fatal exactly when the buffer is
unset; in every reachable state the buffer is set and the call returns the
buffer base advanced by `offset` for every `offset`, checked against nothing,
which is the address of the element at that linear offset when `offset` is
below `size()`. -/
theorem raw_ptr_offset_unchecked {α : Type} (HeadShape : Nat) (TailShapes : List Nat)
    (t : TensorNd) (heap : Heap α) (offset : Nat)
    (hr : Reachable HeadShape TailShapes t heap) :
    (∀ t1 : TensorNd, t1.raw_ptr_offset offset = Outcome.fatal ↔ t1.data_ = none)
    ∧ ∃ a buf, t.data_ = some a ∧ heap[a]? = some buf ∧ t.size = Outcome.ok buf.length
        ∧ t.raw_ptr_offset offset = Outcome.ok ⟨a, offset⟩
        ∧ load heap ⟨a, offset⟩ = buf[offset]?
        ∧ (offset < buf.length → ∃ v, load heap ⟨a, offset⟩ = some v) := by
  constructor
  · intro t1
    unfold TensorNd.raw_ptr_offset
    cases t1.data_ <;> simp
  · obtain ⟨hs, hne, a, buf, hd, hbuf, hlen⟩ := reachable_live HeadShape TailShapes t heap hr
    have hload : load heap ⟨a, offset⟩ = buf[offset]? := by simp [load, hbuf]
    refine ⟨a, buf, hd, hbuf, ?_, by simp [TensorNd.raw_ptr_offset, hd], hload, fun ho => ?_⟩
    · rw [size_eq t (hs ▸ hne), hs, hlen]
    · exact ⟨buf.get ⟨offset, ho⟩, by rw [hload]; exact List.getElem?_eq_getElem ho⟩

/-- C8 on a freshly constructed tensor of shape (2,3) at offset `4`. -/
theorem raw_ptr_offset_unchecked_witness :
    Reachable 2 [3] (TensorNd.Construct 2 [3] (fun i => i) []).1
      (TensorNd.Construct 2 [3] (fun i => i) []).2
    ∧ ∃ a buf, (TensorNd.Construct 2 [3] (fun i => i) []).1.data_ = some a
        ∧ (TensorNd.Construct 2 [3] (fun i => i) []).2[a]? = some buf
        ∧ (TensorNd.Construct 2 [3] (fun i => i) []).1.size = Outcome.ok buf.length
        ∧ (TensorNd.Construct 2 [3] (fun i => i) []).1.raw_ptr_offset 4 = Outcome.ok ⟨a, 4⟩
        ∧ load (TensorNd.Construct 2 [3] (fun i => i) []).2 ⟨a, 4⟩ = buf[4]?
        ∧ (4 < buf.length →
            ∃ v, load (TensorNd.Construct 2 [3] (fun i => i) []).2 ⟨a, 4⟩ = some v) :=
  ⟨Reachable.construct (fun i => i) [] (by decide),
    (raw_ptr_offset_unchecked 2 [3] _ _ 4
      (Reachable.construct (fun i => i) [] (by decide))).2⟩

/-- C8 as stated fails: on shape (2) the buffer is set and `size()` is `2`,
and `raw_ptr(5)` is not fatal; it returns the base advanced by `5`, which
addresses no element. -/
theorem raw_ptr_offset_past_end :
    (TensorNd.Construct 2 [] (fun i => i) []).1.size = Outcome.ok 2
    ∧ ¬ 5 < 2
    ∧ (TensorNd.Construct 2 [] (fun i => i) []).1.raw_ptr_offset 5 = Outcome.ok ⟨0, 5⟩
    ∧ (TensorNd.Construct 2 [] (fun i => i) []).1.raw_ptr_offset 5 ≠ Outcome.fatal
    ∧ load (TensorNd.Construct 2 [] (fun i => i) []).2 ⟨0, 5⟩ = none := by
  refine ⟨by decide, by decide, by decide, by decide, by decide⟩

/-- C9 (as amended): in every reachable state of a tensor with shape
parameters `Shapes...` (after construction and after any sequence of
operations), `raw_shapes()` is `Shapes...` in the same order, the buffer is set
and holds exactly `product(Shapes...) mod 2^32` elements, and `size()` returns
that buffer length; when the product fits in 32 bits both are the product. -/
theorem reachable_invariant {α : Type} (HeadShape : Nat) (TailShapes : List Nat)
    (t : TensorNd) (heap : Heap α) (hr : Reachable HeadShape TailShapes t heap) :
    t.raw_shapes = HeadShape :: TailShapes
    ∧ ∃ a buf, t.data_ = some a ∧ heap[a]? = some buf
        ∧ buf.length = (HeadShape :: TailShapes).prod % U32
        ∧ t.size = Outcome.ok buf.length
        ∧ ((HeadShape :: TailShapes).prod < U32 →
            buf.length = (HeadShape :: TailShapes).prod
              ∧ t.size = Outcome.ok (t.raw_shapes).prod) := by
  obtain ⟨hs, hne, a, buf, hd, hbuf, hlen⟩ := reachable_live HeadShape TailShapes t heap hr
  have hsize : t.size = Outcome.ok buf.length := by
    rw [size_eq t (hs ▸ hne), hs, hlen]
  refine ⟨hs, a, buf, hd, hbuf, hlen, hsize, fun hfit => ?_⟩
  have hb : buf.length = (HeadShape :: TailShapes).prod := by
    rw [hlen, Nat.mod_eq_of_lt hfit]
  refine ⟨hb, ?_⟩
  rw [hsize, hb]
  show Outcome.ok (HeadShape :: TailShapes).prod = Outcome.ok t.raw_shapes_.prod
  rw [hs]

/-- C9 on a tensor of shape (2,3) after `Fill(7)` and a copy of the handle. -/
theorem reachable_invariant_witness :
    Reachable 2 [3] (TensorNd.Construct 2 [3] (fun i => i) []).1.copy
      [[7, 7, 7, 7, 7, 7]]
    ∧ (TensorNd.Construct 2 [3] (fun i => i) []).1.copy.raw_shapes = [2, 3]
    ∧ ∃ a buf, (TensorNd.Construct 2 [3] (fun i => i) []).1.copy.data_ = some a
        ∧ [[7, 7, 7, 7, 7, 7]][a]? = some buf
        ∧ buf.length = [2, 3].prod % U32
        ∧ (TensorNd.Construct 2 [3] (fun i => i) []).1.copy.size = Outcome.ok buf.length
        ∧ ([2, 3].prod < U32 → buf.length = [2, 3].prod
            ∧ (TensorNd.Construct 2 [3] (fun i => i) []).1.copy.size
                = Outcome.ok ((TensorNd.Construct 2 [3] (fun i => i) []).1.copy.raw_shapes).prod) :=
  ⟨Reachable.copy (Reachable.fill 7 [[7, 7, 7, 7, 7, 7]]
      (Reachable.construct (fun i => i) [] (by decide)) (by decide)),
    reachable_invariant 2 [3] _ _ (Reachable.copy (Reachable.fill 7 [[7, 7, 7, 7, 7, 7]]
      (Reachable.construct (fun i => i) [] (by decide)) (by decide)))⟩

/-- C9 as stated fails: immediately after construction with shape
(65536,65536) the buffer holds `0` elements and `size()` is `0`, while the
product of the shape is `4294967296`. -/
theorem buffer_length_wraps :
    (∀ d ∈ [65536, 65536], 0 < d ∧ d < U32)
    ∧ (TensorNd.Construct 65536 [65536] (fun i => i) []).1.raw_shapes = [65536, 65536]
    ∧ (TensorNd.Construct 65536 [65536] (fun i => i) []).1.data_ = some 0
    ∧ (TensorNd.Construct 65536 [65536] (fun i => i) []).2[0]? = some []
    ∧ ([] : List Nat).length ≠ [65536, 65536].prod
    ∧ (TensorNd.Construct 65536 [65536] (fun i => i) []).1.size
        ≠ Outcome.ok ((TensorNd.Construct 65536 [65536] (fun i => i) []).1.raw_shapes).prod := by
  refine ⟨by decide, by decide, by decide, by decide, by decide, by decide⟩

/-- C10: a copy `c` of a reachable handle `t` has the same `raw_shapes()` and
designates the same buffer: after `Fill(v)` or `Fill(values)` through `c` every
element read through `t` at an offset below `size()` has the value written, and
the same holds with `t` and `c` exchanged. -/
theorem copy_shares_buffer {α : Type} (HeadShape : Nat) (TailShapes : List Nat)
    (t : TensorNd) (heap : Heap α) (v : α) (values : List α)
    (hr : Reachable HeadShape TailShapes t heap)
    (hlen : t.size = Outcome.ok values.length) :
    t.copy.raw_shapes = t.raw_shapes
    ∧ t.copy.data_ = t.data_
    ∧ (∃ heap1 n, t.copy.Fill v heap = Outcome.ok heap1 ∧ t.size = Outcome.ok n ∧
        ∀ i, i < n → ∃ p, t.raw_ptr_offset i = Outcome.ok p ∧ load heap1 p = some v)
    ∧ (∃ heap1 n, t.Fill v heap = Outcome.ok heap1 ∧ t.copy.size = Outcome.ok n ∧
        ∀ i, i < n → ∃ p, t.copy.raw_ptr_offset i = Outcome.ok p ∧ load heap1 p = some v)
    ∧ (∃ heap1, t.copy.Fill_values values heap = Outcome.ok heap1 ∧
        ∀ i, i < values.length → ∃ p w, t.raw_ptr_offset i = Outcome.ok p
          ∧ load heap1 p = some w ∧ values[i]? = some w)
    ∧ (∃ heap1, t.Fill_values values heap = Outcome.ok heap1 ∧
        ∀ i, i < values.length → ∃ p w, t.copy.raw_ptr_offset i = Outcome.ok p
          ∧ load heap1 p = some w ∧ values[i]? = some w) := by
  have hl := reachable_live HeadShape TailShapes t heap hr
  obtain ⟨heap1, hf, hs, hread⟩ := Fill_reads (HeadShape :: TailShapes) t heap v hl
  obtain ⟨_, a, hd, hfv, hreadv⟩ :=
    Fill_values_reads (HeadShape :: TailShapes) t heap values hl hlen
  have hvals : ∀ i, i < values.length → ∃ p w, t.raw_ptr_offset i = Outcome.ok p
      ∧ load (heap.set a values) p = some w ∧ values[i]? = some w := by
    intro i hi
    refine ⟨⟨a, i⟩, values.get ⟨i, hi⟩, by simp [TensorNd.raw_ptr_offset, hd], ?_,
      List.getElem?_eq_getElem hi⟩
    rw [hreadv i]
    exact List.getElem?_eq_getElem hi
  rw [copy_eq]
  exact ⟨rfl, rfl, ⟨heap1, _, hf, hs, hread⟩, ⟨heap1, _, hf, hs, hread⟩,
    ⟨_, hfv, hvals⟩, ⟨_, hfv, hvals⟩⟩

/-- C10 on a tensor of shape (2,3): the copy of the handle has the shape of
the original, and a `Fill(7)` through the copy is read through the original. -/
theorem copy_shares_buffer_witness :
    Reachable 2 [3] (TensorNd.Construct 2 [3] (fun i => i) []).1
      (TensorNd.Construct 2 [3] (fun i => i) []).2
    ∧ (TensorNd.Construct 2 [3] (fun i => i) []).1.size
        = Outcome.ok [10, 11, 12, 13, 14, 15].length
    ∧ (TensorNd.Construct 2 [3] (fun i => i) []).1.copy.raw_shapes
        = (TensorNd.Construct 2 [3] (fun i => i) []).1.raw_shapes
    ∧ ∃ heap1 n, (TensorNd.Construct 2 [3] (fun i => i) []).1.copy.Fill 7
          (TensorNd.Construct 2 [3] (fun i => i) []).2 = Outcome.ok heap1
        ∧ (TensorNd.Construct 2 [3] (fun i => i) []).1.size = Outcome.ok n
        ∧ ∀ i, i < n → ∃ p, (TensorNd.Construct 2 [3] (fun i => i) []).1.raw_ptr_offset i
            = Outcome.ok p ∧ load heap1 p = some 7 :=
  ⟨Reachable.construct (fun i => i) [] (by decide), by decide,
    (copy_shares_buffer 2 [3] _ _ 7 [10, 11, 12, 13, 14, 15]
      (Reachable.construct (fun i => i) [] (by decide)) (by decide)).1,
    (copy_shares_buffer 2 [3] _ _ 7 [10, 11, 12, 13, 14, 15]
      (Reachable.construct (fun i => i) [] (by decide)) (by decide)).2.2.1⟩

/-- C11: for every valid `Tensor<float>` of shape (channels, rows, cols), every
flag `rm` and every sequence `v` of length `size()`, `Fill(v, rm)` succeeds and
`values(rm)` on the result returns exactly `v`. -/
theorem Fill_values_then_values {α : Type} [Zero α] (t : Tensor α) (rm : Bool) (v : List α)
    (ht : t.Valid) (hv : v.length = t.size) :
    ∃ t1, t.Fill_values v rm = Outcome.ok t1 ∧ t1.values rm = Outcome.ok v
      ∧ t1.shapes = t.shapes := by
  obtain ⟨t1, hf, hvals, hr, hk, hc, _⟩ :=
    Fill_values_round_trip t v rm (Valid_not_empty t ht) (Valid_size_pos t ht) hv
  refine ⟨t1, hf, hvals, ?_⟩
  simp only [Tensor.shapes, Tensor.channels, Tensor.rows, Tensor.cols, hr, hk, hc]

/-- C11 on `Tensor(2,2,3)` with the values `0..11`, for both flags. -/
theorem Fill_values_then_values_witness :
    (Tensor.Construct 2 2 3 : Tensor Nat).Valid
    ∧ [0, 1, 2, 3, 4, 5, 6, 7, 8, 9, 10, 11].length = (Tensor.Construct 2 2 3 : Tensor Nat).size
    ∧ (∃ t1, (Tensor.Construct 2 2 3 : Tensor Nat).Fill_values
          [0, 1, 2, 3, 4, 5, 6, 7, 8, 9, 10, 11] true = Outcome.ok t1
        ∧ t1.values true = Outcome.ok [0, 1, 2, 3, 4, 5, 6, 7, 8, 9, 10, 11]
        ∧ t1.shapes = (Tensor.Construct 2 2 3 : Tensor Nat).shapes)
    ∧ (∃ t1, (Tensor.Construct 2 2 3 : Tensor Nat).Fill_values
          [0, 1, 2, 3, 4, 5, 6, 7, 8, 9, 10, 11] false = Outcome.ok t1
        ∧ t1.values false = Outcome.ok [0, 1, 2, 3, 4, 5, 6, 7, 8, 9, 10, 11]
        ∧ t1.shapes = (Tensor.Construct 2 2 3 : Tensor Nat).shapes) :=
  ⟨Valid_Construct 2 2 3 (by decide) (by decide) (by decide), by decide,
    Fill_values_then_values _ true _ (Valid_Construct 2 2 3 (by decide) (by decide) (by decide))
      (by decide),
    Fill_values_then_values _ false _ (Valid_Construct 2 2 3 (by decide) (by decide) (by decide))
      (by decide)⟩

/-- C12: for every valid `Tensor<float>` populated with `Fill(v, rm)` and
every 3-element shape `S2`, `Reshape(S2, rm)` is fatal when `product(S2)`
differs from `size()`; when they are equal it succeeds, `shapes()` becomes `S2`
and `values(rm)` is still `v`. -/
theorem Reshape_keeps_values {α : Type} [Zero α] (t t1 : Tensor α) (rm : Bool) (v : List α)
    (c2 r2 k2 : Nat) (ht : t.Valid) (hf : t.Fill_values v rm = Outcome.ok t1) :
    ([c2, r2, k2].prod ≠ t1.size → t1.Reshape [c2, r2, k2] rm = Outcome.fatal)
    ∧ ([c2, r2, k2].prod = t1.size →
        ∃ t2, t1.Reshape [c2, r2, k2] rm = Outcome.ok t2 ∧ t2.shapes = [c2, r2, k2]
          ∧ t2.values rm = Outcome.ok v) := by
  have hv := Fill_values_inv3 t t1 v rm hf
  obtain ⟨t3, hf3, hvals, hr, hk, hc, hl⟩ :=
    Fill_values_round_trip t v rm (Valid_not_empty t ht) (Valid_size_pos t ht) hv
  rw [hf] at hf3
  have h13 : t1 = t3 := Outcome.ok.inj hf3
  subst h13
  have hsz : t1.size = t.size := by
    simp only [Tensor.size, Tensor.channels, Tensor.rows, Tensor.cols, hr, hk, hc]
  have hpos : 0 < t1.size := by rw [hsz]; exact Valid_size_pos t ht
  have hne : t1.empty = false := empty_eq_false t1 (by rw [hl, ← hsz]; exact hpos)
  have hprod : [c2, r2, k2].prod = c2 * r2 * k2 := by
    simp [Nat.mul_assoc]
  rw [hprod]
  exact Reshape_eq t1 v rm c2 r2 k2 hne hpos hvals (by rw [hsz]; exact hv)

/-- C12, the scenario of the specification: `Tensor(2,3,4)` has `size() == 24`;
after `Fill(1.0)`, which stores what `Fill` of the all-ones sequence stores,
`at(1,2,3)` is `1`; and `Reshape({4,3,2}, true)` leaves `values(true)` equal to
the all-ones sequence of length 24. -/
theorem Reshape_keeps_values_witness :
    (Tensor.Construct 2 3 4 : Tensor Nat).Valid
    ∧ (Tensor.Construct 2 3 4 : Tensor Nat).size = 24
    ∧ (Tensor.Construct 2 3 4 : Tensor Nat).Fill 1
        = Outcome.ok (Tensor.mk 3 4 2 (List.replicate 24 1))
    ∧ (Tensor.Construct 2 3 4 : Tensor Nat).Fill_values (List.replicate 24 1) true
        = Outcome.ok (Tensor.mk 3 4 2 (List.replicate 24 1))
    ∧ (Tensor.mk 3 4 2 (List.replicate 24 1) : Tensor Nat).at_ 1 2 3 = Outcome.ok 1
    ∧ [4, 3, 2].prod = (Tensor.mk 3 4 2 (List.replicate 24 1) : Tensor Nat).size
    ∧ ∃ t2, (Tensor.mk 3 4 2 (List.replicate 24 1) : Tensor Nat).Reshape [4, 3, 2] true
          = Outcome.ok t2
        ∧ t2.shapes = [4, 3, 2]
        ∧ t2.values true = Outcome.ok (List.replicate 24 1) :=
  ⟨Valid_Construct 2 3 4 (by decide) (by decide) (by decide), by decide, by decide, by decide,
    by decide, by decide,
    (Reshape_keeps_values (Tensor.Construct 2 3 4 : Tensor Nat) _ true (List.replicate 24 1)
      4 3 2 (Valid_Construct 2 3 4 (by decide) (by decide) (by decide)) (by decide)).2
      (by decide)⟩

/-- C13: for every valid `Tensor<float>` of shape `{C,R,Col}` and every `p`,
`q`, `pv`, `Padding({p,p,q,q}, pv)` succeeds and yields shape
`{C,R+2p,Col+2q}`; for every channel `c` and all valid `r`, `col`,
`at(c, r+p, col+q)` is the original `at(c,r,col)`; every other cell is `pv`. -/
theorem Padding_cells {α : Type} [Zero α] (t : Tensor α) (p q : Nat) (pv : α) (ht : t.Valid) :
    ∃ u, t.Padding [p, p, q, q] pv = Outcome.ok u
      ∧ u.shapes = [t.channels, t.rows + 2 * p, t.cols + 2 * q]
      ∧ (∀ c r k, c < t.channels → r < t.rows → k < t.cols →
          ∃ x, t.at_ c r k = Outcome.ok x ∧ u.at_ c (r + p) (k + q) = Outcome.ok x)
      ∧ (∀ c r1 k1, c < t.channels → r1 < t.rows + 2 * p → k1 < t.cols + 2 * q →
          (¬ ∃ r k, r < t.rows ∧ k < t.cols ∧ r1 = r + p ∧ k1 = k + q) →
          u.at_ c r1 k1 = Outcome.ok pv) := by
  obtain ⟨u, hu, hshape, hat⟩ := Padding_at t p p q q pv (Valid_not_empty t ht)
  refine ⟨u, hu, ?_, ?_, ?_⟩
  · rw [hshape]
    have e1 : t.rows + p + p = t.rows + 2 * p := by omega
    have e2 : t.cols + q + q = t.cols + 2 * q := by omega
    rw [e1, e2]
  · intro c r k hc hr hk
    refine ⟨_, at_eq t c r k ht.2.2.2 hc hr hk, ?_⟩
    rw [hat c (r + p) (k + q) hc (by omega) (by omega),
      if_pos ⟨by omega, by omega, by omega, by omega⟩, Nat.add_sub_cancel, Nat.add_sub_cancel]
  · intro c r1 k1 hc hr hk hno
    rw [hat c r1 k1 hc (by omega) (by omega), if_neg]
    rintro ⟨h1, h2, h3, h4⟩
    exact hno ⟨r1 - p, k1 - q, by omega, by omega, by omega, by omega⟩

/-- C13 on `Tensor(1,2,3)` holding `1..6` in row-major order, padded by
`{1,1,2,2}` with `9`: the shape becomes `{1,4,7}`, `at(0,1,2)` is the original
`at(0,0,0)`, and the corner `at(0,0,0)` is `9`. -/
theorem Padding_cells_witness :
    (Tensor.mk 2 3 1 [1, 4, 2, 5, 3, 6] : Tensor Nat).Valid
    ∧ ∃ u, (Tensor.mk 2 3 1 [1, 4, 2, 5, 3, 6] : Tensor Nat).Padding [1, 1, 2, 2] 9
          = Outcome.ok u
        ∧ u.shapes = [1, 2 + 2 * 1, 3 + 2 * 2]
        ∧ (∃ x, (Tensor.mk 2 3 1 [1, 4, 2, 5, 3, 6] : Tensor Nat).at_ 0 0 0 = Outcome.ok x
            ∧ u.at_ 0 (0 + 1) (0 + 2) = Outcome.ok x)
        ∧ u.at_ 0 0 0 = Outcome.ok 9 := by
  have hv : (Tensor.mk 2 3 1 [1, 4, 2, 5, 3, 6] : Tensor Nat).Valid :=
    ⟨by decide, by decide, by decide, by decide⟩
  obtain ⟨u, hu, hs, hin, hout⟩ := Padding_cells (Tensor.mk 2 3 1 [1, 4, 2, 5, 3, 6]) 1 2 9 hv
  refine ⟨hv, u, hu, hs, hin 0 0 0 (by decide) (by decide) (by decide), ?_⟩
  apply hout 0 0 0 (by decide) (by decide) (by decide)
  rintro ⟨r, k, _, _, h1, _⟩
  omega

/-- C14: in every reachable state of a tensor whose dimension product fits in
32 bits, an index sequence accepted by `raw_ptr(idx)` (length below the rank,
every `idx[i]` below `dims[i]`, every dimension positive) yields a linear
offset strictly below `size()`, so the returned pointer addresses an element
of the allocated buffer; and no intermediate value of the 32-bit accumulator
wraps: before each iteration the accumulator holds the unbounded accumulation,
and the unbounded product and sum of that iteration are below `2^32`. -/
theorem raw_ptr_offsets_in_buffer {α : Type} (HeadShape : Nat) (TailShapes : List Nat)
    (t : TensorNd) (heap : Heap α) (idx : List Nat)
    (hr : Reachable HeadShape TailShapes t heap)
    (hfit : (HeadShape :: TailShapes).prod < U32)
    (hpos : ∀ d ∈ HeadShape :: TailShapes, 0 < d)
    (hlen : idx.length < (HeadShape :: TailShapes).length)
    (hidx : ∀ i, i < idx.length → idx.getD i 0 < (HeadShape :: TailShapes).getD i 0) :
    ∃ p n, t.raw_ptr_offsets idx = Outcome.ok p ∧ t.size = Outcome.ok n ∧ p.off < n
      ∧ (∃ v, load heap p = some v)
      ∧ p.off = hornerOffset (HeadShape :: TailShapes) idx
      ∧ ∀ m, m < (HeadShape :: TailShapes).length →
          (List.range m).foldl
              (offsetStep (HeadShape :: TailShapes)
                (padOffsets (HeadShape :: TailShapes).length idx)) (Outcome.ok 0)
            = Outcome.ok
                (hornerUpTo (fun i => (HeadShape :: TailShapes).getD i 0) (padded idx) m)
          ∧ hornerUpTo (fun i => (HeadShape :: TailShapes).getD i 0) (padded idx) m
              * (HeadShape :: TailShapes).getD m 0 < U32
          ∧ hornerUpTo (fun i => (HeadShape :: TailShapes).getD i 0) (padded idx) m
              * (HeadShape :: TailShapes).getD m 0 + padded idx m < U32 := by
  obtain ⟨hs, hne, a, buf, hd, hbuf, hbl⟩ := reachable_live HeadShape TailShapes t heap hr
  have hchk := checks_of_valid (HeadShape :: TailShapes) idx hpos hidx
  have hlt := hornerOffset_lt_prod (HeadShape :: TailShapes) idx hchk
  have hok := raw_ptr_offsets_ok t a idx hd (hs ▸ hpos) (hs ▸ hlen) (hs ▸ hidx)
  rw [hs, Nat.mod_eq_of_lt (Nat.lt_trans hlt hfit)] at hok
  have hsz : t.size = Outcome.ok (HeadShape :: TailShapes).prod := by
    rw [size_eq t (hs ▸ hne), hs, Nat.mod_eq_of_lt hfit]
  rw [Nat.mod_eq_of_lt hfit] at hbl
  have hin : hornerOffset (HeadShape :: TailShapes) idx < buf.length := by rw [hbl]; exact hlt
  refine ⟨_, _, hok, hsz, hlt, ⟨buf.get ⟨_, hin⟩, ?_⟩, rfl, fun m hm => ?_⟩
  · simp only [load, hbuf]
    exact List.getElem?_eq_getElem hin
  · exact ⟨offsetLoop_exact (HeadShape :: TailShapes) idx m (Nat.le_of_lt hm) hchk hfit,
      (horner_no_wrap (HeadShape :: TailShapes) idx m hm hchk hfit).2⟩

/-- C14 on shape (2,3,4) with `idx = {1,2}`: the offset `20` is below `24`. -/
theorem raw_ptr_offsets_in_buffer_witness :
    Reachable 2 [3, 4] (TensorNd.Construct 2 [3, 4] (fun i => i) []).1
      (TensorNd.Construct 2 [3, 4] (fun i => i) []).2
    ∧ [2, 3, 4].prod < U32
    ∧ (∀ d ∈ [2, 3, 4], 0 < d)
    ∧ [1, 2].length < [2, 3, 4].length
    ∧ (∀ i, i < [1, 2].length → [1, 2].getD i 0 < [2, 3, 4].getD i 0)
    ∧ ∃ p n, (TensorNd.Construct 2 [3, 4] (fun i => i) []).1.raw_ptr_offsets [1, 2]
          = Outcome.ok p
        ∧ (TensorNd.Construct 2 [3, 4] (fun i => i) []).1.size = Outcome.ok n
        ∧ p.off < n
        ∧ (∃ v, load (TensorNd.Construct 2 [3, 4] (fun i => i) []).2 p = some v)
        ∧ p.off = 20 := by
  have hr : Reachable 2 [3, 4] (TensorNd.Construct 2 [3, 4] (fun i => i) []).1
      (TensorNd.Construct 2 [3, 4] (fun i => i) []).2 :=
    Reachable.construct (fun i => i) [] (by decide)
  obtain ⟨p, n, h1, h2, h3, h4, h5, _⟩ :=
    raw_ptr_offsets_in_buffer 2 [3, 4] _ _ [1, 2] hr (by decide) (by decide) (by decide)
      (by decide)
  exact ⟨hr, by decide, by decide, by decide, by decide, p, n, h1, h2, h3, h4,
    h5.trans (by decide)⟩

/-- C15: in every reachable state of a tensor whose dimension product fits in
32 bits, for two index sequences `a` and `b` accepted by `raw_ptr`, the offset
of `a` is below the offset of `b` exactly when the zero-padded `a` is
lexicographically below the zero-padded `b`; and the two pointers are equal
exactly when the padded sequences are equal. -/
theorem raw_ptr_offsets_lex {α : Type} (HeadShape : Nat) (TailShapes : List Nat)
    (t : TensorNd) (heap : Heap α) (a b : List Nat) (pa pb : Ptr)
    (hr : Reachable HeadShape TailShapes t heap)
    (hfit : (HeadShape :: TailShapes).prod < U32)
    (ha : t.raw_ptr_offsets a = Outcome.ok pa) (hb : t.raw_ptr_offsets b = Outcome.ok pb) :
    (pa.off < pb.off ↔
      List.Lex (fun u v => u < v) (padOffsets (HeadShape :: TailShapes).length a)
        (padOffsets (HeadShape :: TailShapes).length b))
    ∧ (pa = pb ↔
      padOffsets (HeadShape :: TailShapes).length a
        = padOffsets (HeadShape :: TailShapes).length b) := by
  obtain ⟨hs, hne, addr, buf, hd, hbuf, hbl⟩ := reachable_live HeadShape TailShapes t heap hr
  obtain ⟨_, hca, hpa⟩ := raw_ptr_offsets_inv t addr a pa hd ha
  obtain ⟨_, hcb, hpb⟩ := raw_ptr_offsets_inv t addr b pb hd hb
  rw [hs] at hca hcb hpa hpb
  have hla := hornerOffset_lt_prod (HeadShape :: TailShapes) a hca
  have hlb := hornerOffset_lt_prod (HeadShape :: TailShapes) b hcb
  rw [Nat.mod_eq_of_lt (Nat.lt_trans hla hfit), hornerOffset_eq] at hpa
  rw [Nat.mod_eq_of_lt (Nat.lt_trans hlb hfit), hornerOffset_eq] at hpb
  rw [padOffsets_eq, padOffsets_eq, lex_map_range, hpa, hpb]
  constructor
  · exact horner_lt_iff_lex _ (padded a) (padded b) _ hca hcb
  · rw [List.map_inj_left]
    constructor
    · intro h
      have h1 := (horner_eq_iff _ (padded a) (padded b) _ hca hcb).mp (congrArg Ptr.off h)
      exact fun i hi => h1 i (List.mem_range.mp hi)
    · intro h
      have h1 := (horner_eq_iff _ (padded a) (padded b) _ hca hcb).mpr
        (fun i hi => h i (List.mem_range.mpr hi))
      rw [h1]

/-- C15 on shape (2,3,4): `{0,2}` pads to `(0,2,0)`, `{1}` pads to `(1,0,0)`,
and the offsets are `8` and `12`. -/
theorem raw_ptr_offsets_lex_witness :
    Reachable 2 [3, 4] (TensorNd.Construct 2 [3, 4] (fun i => i) []).1
      (TensorNd.Construct 2 [3, 4] (fun i => i) []).2
    ∧ [2, 3, 4].prod < U32
    ∧ (TensorNd.Construct 2 [3, 4] (fun i => i) []).1.raw_ptr_offsets [0, 2]
        = Outcome.ok ⟨0, 8⟩
    ∧ (TensorNd.Construct 2 [3, 4] (fun i => i) []).1.raw_ptr_offsets [1]
        = Outcome.ok ⟨0, 12⟩
    ∧ ((8 : Nat) < 12 ↔
        List.Lex (fun u v => u < v) (padOffsets [2, 3, 4].length [0, 2])
          (padOffsets [2, 3, 4].length [1])) :=
  ⟨Reachable.construct (fun i => i) [] (by decide), by decide, by decide, by decide,
    (raw_ptr_offsets_lex 2 [3, 4] _ _ [0, 2] [1] ⟨0, 8⟩ ⟨0, 12⟩
      (Reachable.construct (fun i => i) [] (by decide)) (by decide) (by decide)
      (by decide)).1⟩

end kuiper_infer
